import Mathlib

/-!
Verification of the convex-hull engine of this repository (Graham scan,
`ConvexHull.compute_hull` / `ConvexHull.graham_scan` in `main.py`).

Embedding conventions:
* A point is a pair of rational numbers.  The source works on real
  (floating point) coordinates; the embedding uses exact rational
  arithmetic, which is the exact-semantics reading of the spec
  ("coordinates are real numbers").
* `math.atan2` is used by the source only as a sort key.  For vectors in
  the plane, comparison of `atan2` values is modelled exactly by the
  comparison `atanLt` below: first by the class of the angle
  (`(-pi,0)`, `0`, `(0,pi)`, `pi` — note `atan2 0 0 = 0`), then inside a
  class by the sign of the cross product, which for two vectors in a
  common open half plane orders them by angle.
* `math.sqrt` is used by the source only in comparisons
  `distance(p,q) < distance(p,r)`; since `sqrt` is strictly monotone,
  this is modelled by comparing squared distances (`dist2`).
* Python's `sorted` is a stable sort; it is modelled by
  `List.insertionSort`, which is also stable, over the total preorder
  `keyLe` given by the sort key of `graham_scan` (`-inf` for points
  equal to the anchor, else the polar angle).
* Python lists are Lean lists; `list.pop(i)` is `List.eraseIdx`,
  `hull.pop()` / `hull.append` act on the reversed hull list
  (head = top of stack).
-/

/-- A point, as in the source: a pair `(x, y)` of coordinates. -/
abbrev Point := ℚ × ℚ

/-- The cross-product expression computed by `ConvexHull.orientation`:
`val = (q[1] - p[1]) * (r[0] - q[0]) - (q[0] - p[0]) * (r[1] - q[1])`. -/
def val (p q r : Point) : ℚ :=
  (q.2 - p.2) * (r.1 - q.1) - (q.1 - p.1) * (r.2 - q.2)

/-- `ConvexHull.orientation`: `0` collinear, `1` clockwise (`val > 0`),
`2` counterclockwise (`val < 0`). -/
def orientation (p q r : Point) : ℕ :=
  if val p q r = 0 then 0 else if 0 < val p q r then 1 else 2

/-- Squared euclidean distance.  The source computes
`math.sqrt((p1[0]-p2[0])**2 + (p1[1]-p2[1])**2)` and only ever compares
two such distances with `<`; `sqrt` being strictly monotone, comparing
`dist2` values is an exact model of those comparisons. -/
def dist2 (p q : Point) : ℚ :=
  (p.1 - q.1) ^ 2 + (p.2 - q.2) ^ 2

/-- Python tuple comparison `(p[1], p[0]) < (q[1], q[0])` used as the key
of `min` in step 1 of `graham_scan` (lowest `y`, then lowest `x`). -/
def lexLt (p q : Point) : Prop :=
  p.2 < q.2 ∨ (p.2 = q.2 ∧ p.1 < q.1)

instance : DecidableRel lexLt := fun p q => by
  unfold lexLt; infer_instance

/-- `min(points, key=lambda p: (p[1], p[0]))`: Python's `min` keeps the
first element and replaces it only when a strictly smaller key appears,
so it returns the first occurrence of the minimum. -/
def pyMin (p : Point) (l : List Point) : Point :=
  l.foldl (fun m q => if lexLt q m then q else m) p

/-- The standard cross product `v × w`. -/
def crossv (v w : ℚ × ℚ) : ℚ := v.1 * w.2 - v.2 * w.1

/-- Vector from `q` to `p`. -/
def vsub (p q : Point) : Point := (p.1 - q.1, p.2 - q.2)

/-- Class of the value `atan2 v.2 v.1` inside `(-pi, pi]`:
`0` for angles in `(-pi,0)` (i.e. `y < 0`), `1` for angle `0`
(`y = 0, x ≥ 0`; this includes `atan2 0 0 = 0`), `2` for angles in
`(0,pi)` (`y > 0`), `3` for angle `pi` (`y = 0, x < 0`).  Larger class
means strictly larger `atan2` value. -/
def classIdx (v : ℚ × ℚ) : ℕ :=
  if v.2 < 0 then 0
  else if v.2 = 0 ∧ 0 ≤ v.1 then 1
  else if 0 < v.2 then 2
  else 3

/-- Exact model of `atan2 v.2 v.1 < atan2 w.2 w.1`: compare classes,
then, inside a common class, compare by the sign of the cross product
(inside class `0` or `2` both vectors lie in a common open half plane, so
`0 < v × w` iff the angle of `w` exceeds the angle of `v`; inside class
`1` or `3` the cross product is `0` and the angles are equal). -/
def atanLt (v w : ℚ × ℚ) : Prop :=
  classIdx v < classIdx w ∨ (classIdx v = classIdx w ∧ 0 < crossv v w)

instance : DecidableRel atanLt := fun v w => by
  unfold atanLt; infer_instance

/-- The sort key comparison of `graham_scan.polar_angle`: a point equal
(by value, Python `==`) to `lowest` gets key `-inf`, every other point
gets key `atan2(p[1]-lowest[1], p[0]-lowest[0])`; keys are compared as
real numbers. -/
def keyLt (lowest a b : Point) : Prop :=
  (a = lowest ∧ b ≠ lowest) ∨
    (a ≠ lowest ∧ b ≠ lowest ∧ atanLt (vsub a lowest) (vsub b lowest))

instance (lowest : Point) : DecidableRel (keyLt lowest) := fun a b => by
  unfold keyLt; infer_instance

/-- The (total pre)order induced by the sort keys. -/
def keyLe (lowest a b : Point) : Prop := ¬ keyLt lowest b a

instance (lowest : Point) : DecidableRel (keyLe lowest) := fun a b => by
  unfold keyLe; infer_instance

/-- Lines 104–115 of `main.py`: the in-place collinear collapsing loop
```
i = 1
while i < len(sorted_points) - 1:
    o = self.orientation(lowest, sorted_points[i], sorted_points[i+1])
    if o == 0:
        if self.distance(lowest, sorted_points[i]) < self.distance(lowest, sorted_points[i+1]):
            sorted_points.pop(i)
        else:
            sorted_points.pop(i+1)
    else:
        i += 1
```
modelled literally on `(s, i)`.  Every iteration of the loop either
removes an element strictly right of position `i - 1` or increments `i`,
so the loop performs exactly `s.length - 1 - i` iterations; the fuel
argument (instantiated with `s.length` in `collinearPass`, a strict
upper bound) only makes the recursion structural and is never exhausted
(theorem `collinearPass_eq_passRun` computes the exact result). -/
def collinearLoop (lowest : Point) : ℕ → List Point → ℕ → List Point
  | 0, s, _ => s
  | fuel + 1, s, i =>
    if h : i < s.length - 1 then
      if orientation lowest (s.get ⟨i, by omega⟩) (s.get ⟨i + 1, by omega⟩) = 0 then
        if dist2 lowest (s.get ⟨i, by omega⟩) < dist2 lowest (s.get ⟨i + 1, by omega⟩) then
          collinearLoop lowest fuel (s.eraseIdx i) i
        else
          collinearLoop lowest fuel (s.eraseIdx (i + 1)) i
      else
        collinearLoop lowest fuel s (i + 1)
    else s

/-- The collinear collapsing loop, started as in the source. -/
def collinearPass (lowest : Point) (s : List Point) (i : ℕ) : List Point :=
  collinearLoop lowest s.length s i

/-- Functional form of one left-to-right sweep of the collapsing loop,
carrying the element currently at position `i` (`cur`) and the elements
to its right.  `collinearPass` on `pre ++ cur :: rest` at `i = pre.length`
equals `pre ++ passRun lowest cur rest` (theorem `collinearPass_eq_passRun`). -/
def passRun (lowest : Point) (cur : Point) : List Point → List Point
  | [] => [cur]
  | x :: rest =>
    if orientation lowest cur x = 0 then
      if dist2 lowest cur < dist2 lowest x then passRun lowest x rest
      else passRun lowest cur rest
    else cur :: passRun lowest x rest

/-- The inner `while` of step 3:
`while len(hull) > 1 and orientation(hull[-2], hull[-1], p) != 2: hull.pop()`.
The stack is kept reversed (head = top = `hull[-1]`). -/
def popWhile (p : Point) : List Point → List Point
  | a :: b :: t => if orientation b a p ≠ 2 then popWhile p (b :: t) else a :: b :: t
  | s => s

/-- The `for` loop of step 3: each remaining point is pushed after the
non-counterclockwise turns are popped; at the end the stack (kept
reversed) is the hull, bottom first. -/
def scanFold (stack : List Point) : List Point → List Point
  | [] => stack.reverse
  | p :: rest => scanFold (p :: popWhile p stack) rest

/-- `ConvexHull.graham_scan` (lines 69–133 of `main.py`). -/
def grahamScan (points : List Point) : List Point :=
  if points.length < 3 then points
  else
    match points with
    | [] => []
    | p0 :: ptail =>
      let lowest := pyMin p0 ptail
      let sorted := List.insertionSort (keyLe lowest) points
      let collapsed := collinearPass lowest sorted 1
      if collapsed.length < 3 then collapsed
      else
        match collapsed with
        | c0 :: c1 :: crest => scanFold [c1, c0] crest
        | _ => collapsed

/-- `ConvexHull.compute_hull`: raises
`ValueError("No points available. Add points first.")` when the point
list is empty (`if not self.points`), otherwise returns `graham_scan()`. -/
def computeHull (points : List Point) : Except String (List Point) :=
  if points = [] then Except.error "No points available. Add points first."
  else Except.ok (grahamScan points)

/-! ### Basic facts about the orientation test -/

/-- The standard (counterclockwise-positive) cross product
`(q - p) × (r - p)`; it equals `-val p q r`. -/
def cross3 (p q r : Point) : ℚ :=
  (q.1 - p.1) * (r.2 - p.2) - (q.2 - p.2) * (r.1 - p.1)

theorem val_eq_neg_cross3 (p q r : Point) : val p q r = - cross3 p q r := by
  unfold val cross3; ring

theorem cross3_cyclic (p q r : Point) : cross3 p q r = cross3 q r p := by
  unfold cross3; ring

theorem cross3_swap23 (p q r : Point) : cross3 p q r = - cross3 p r q := by
  unfold cross3; ring

theorem cross3_eq_crossv (p q r : Point) :
    cross3 p q r = crossv (vsub q p) (vsub r p) := by
  unfold cross3 crossv vsub; ring

theorem orientation_eq_ite (p q r : Point) :
    orientation p q r =
      if cross3 p q r = 0 then 0 else if cross3 p q r < 0 then 1 else 2 := by
  unfold orientation
  rw [val_eq_neg_cross3]
  simp only [neg_eq_zero, neg_pos]

theorem orientation_eq_two_iff (p q r : Point) :
    orientation p q r = 2 ↔ 0 < cross3 p q r := by
  rw [orientation_eq_ite]
  rcases lt_trichotomy (cross3 p q r) 0 with h | h | h
  · rw [if_neg h.ne, if_pos h]; exact iff_of_false (by omega) (by linarith)
  · rw [if_pos h]; exact iff_of_false (by omega) (by rw [h]; exact lt_irrefl 0)
  · rw [if_neg h.ne', if_neg (by linarith)]; exact iff_of_true rfl h

theorem orientation_eq_zero_iff (p q r : Point) :
    orientation p q r = 0 ↔ cross3 p q r = 0 := by
  rw [orientation_eq_ite]
  rcases lt_trichotomy (cross3 p q r) 0 with h | h | h
  · rw [if_neg h.ne, if_pos h]; exact iff_of_false (by omega) h.ne
  · rw [if_pos h]; exact iff_of_true rfl h
  · rw [if_neg h.ne', if_neg (by linarith)]; exact iff_of_false (by omega) h.ne'

theorem orientation_ne_two_iff (p q r : Point) :
    orientation p q r ≠ 2 ↔ cross3 p q r ≤ 0 := by
  rw [ne_eq, orientation_eq_two_iff, not_lt]

theorem cross3_self_mid (p q r : Point) (h : q = p) : cross3 p q r = 0 := by
  subst h; unfold cross3; ring

/-- Plücker-type identity for four vectors based at a common origin. -/
theorem crossv_mul_crossv (a b c p : ℚ × ℚ) :
    crossv a b * crossv c p = crossv a c * crossv b p - crossv b c * crossv a p := by
  unfold crossv; ring

/-- The second-coordinate expansion identity used for transitivity of the
angular comparison inside an open half plane. -/
theorem crossv_y_identity (u v w : ℚ × ℚ) :
    v.2 * crossv u w = u.2 * crossv v w + w.2 * crossv u v := by
  unfold crossv; ring

theorem crossv_antisymm (v w : ℚ × ℚ) : crossv v w = - crossv w v := by
  unfold crossv; ring

theorem crossv_self (v : ℚ × ℚ) : crossv v v = 0 := by
  unfold crossv; ring

/-! ### The anchor (`min` with key `(y, x)`) -/

theorem lexLt_irrefl (p : Point) : ¬ lexLt p p := by
  unfold lexLt; simp

theorem lexLt_trans {p q r : Point} (h1 : lexLt p q) (h2 : lexLt q r) : lexLt p r := by
  unfold lexLt at *
  rcases h1 with h1 | ⟨h1, h1'⟩ <;> rcases h2 with h2 | ⟨h2, h2'⟩
  · exact Or.inl (h1.trans h2)
  · exact Or.inl (h2 ▸ h1)
  · exact Or.inl (h1 ▸ h2)
  · exact Or.inr ⟨h1.trans h2, h1'.trans h2'⟩

theorem lexLt_total {p q : Point} (h : ¬ lexLt p q) (h' : ¬ lexLt q p) : p = q := by
  unfold lexLt at *
  push_neg at h h'
  have h2 : p.2 = q.2 := le_antisymm h'.1 h.1
  have h1 : p.1 = q.1 := le_antisymm (h'.2 h2.symm) (h.2 h2)
  exact Prod.ext h1 h2

theorem pyMin_step (p q : Point) (t : List Point) :
    pyMin p (q :: t) = pyMin (if lexLt q p then q else p) t := rfl

theorem pyMin_mem (p : Point) (l : List Point) : pyMin p l ∈ p :: l := by
  induction l generalizing p with
  | nil => simp [pyMin]
  | cons q t ih =>
    rw [pyMin_step]
    by_cases hqp : lexLt q p
    · rw [if_pos hqp]
      rcases List.mem_cons.mp (ih q) with h | h
      · simp [h]
      · simp [h]
    · rw [if_neg hqp]
      rcases List.mem_cons.mp (ih p) with h | h
      · simp [h]
      · simp [h]

theorem pyMin_not_lt (p : Point) (l : List Point) :
    ∀ r ∈ p :: l, ¬ lexLt r (pyMin p l) := by
  induction l generalizing p with
  | nil =>
    intro r hr
    simp only [List.mem_cons, List.not_mem_nil, or_false] at hr
    subst hr
    simpa [pyMin] using lexLt_irrefl r
  | cons q t ih =>
    intro r hr
    rw [pyMin_step]
    simp only [List.mem_cons] at hr
    by_cases hqp : lexLt q p
    · rw [if_pos hqp]
      rcases hr with hr | hr | hr
      · rw [hr]
        intro hlt
        exact ih q q (by simp) (lexLt_trans hqp hlt)
      · rw [hr]
        exact ih q q (by simp)
      · exact ih q r (by simp [hr])
    · rw [if_neg hqp]
      rcases hr with hr | hr | hr
      · rw [hr]
        exact ih p p (by simp)
      · rw [hr]
        intro hlt
        by_cases hpq : lexLt p q
        · exact ih p p (by simp) (lexLt_trans hpq hlt)
        · exact ih p p (by simp) ((lexLt_total hpq hqp) ▸ hlt)
      · exact ih p r (by simp [hr])

theorem pyMin_eq_of_min {p : Point} {l : List Point} {m : Point}
    (hm : m ∈ p :: l) (hmin : ∀ r ∈ p :: l, ¬ lexLt r m) : pyMin p l = m :=
  lexLt_total (hmin _ (pyMin_mem p l)) (pyMin_not_lt p l m hm)

/-! ### Order theory of the polar-angle sort key -/

theorem classIdx_cases (v : ℚ × ℚ) :
    (classIdx v = 0 ∧ v.2 < 0) ∨ (classIdx v = 1 ∧ v.2 = 0 ∧ 0 ≤ v.1) ∨
      (classIdx v = 2 ∧ 0 < v.2) ∨ (classIdx v = 3 ∧ v.2 = 0 ∧ v.1 < 0) := by
  unfold classIdx
  split_ifs with h1 h2 h3
  · exact Or.inl ⟨rfl, h1⟩
  · exact Or.inr (Or.inl ⟨rfl, h2⟩)
  · exact Or.inr (Or.inr (Or.inl ⟨rfl, h3⟩))
  · have h2' : v.2 = 0 := le_antisymm (not_lt.mp h3) (not_lt.mp h1)
    have h1' : v.1 < 0 := by
      by_contra hx
      exact h2 ⟨h2', not_lt.mp hx⟩
    exact Or.inr (Or.inr (Or.inr ⟨rfl, h2', h1'⟩))

theorem classIdx_of_pos {v : ℚ × ℚ} (h : 0 < v.2) : classIdx v = 2 := by
  unfold classIdx
  rw [if_neg (by linarith), if_neg (by rintro ⟨h2, -⟩; linarith), if_pos h]

theorem classIdx_of_axis {v : ℚ × ℚ} (h2 : v.2 = 0) (h1 : 0 ≤ v.1) : classIdx v = 1 := by
  unfold classIdx
  rw [if_neg (by linarith), if_pos ⟨h2, h1⟩]

theorem atanLt_asymm {v w : ℚ × ℚ} (h : atanLt v w) : ¬ atanLt w v := by
  rcases h with h | ⟨he, hx⟩ <;> rintro (h' | ⟨he', hx'⟩)
  · omega
  · omega
  · omega
  · rw [crossv_antisymm] at hx'
    linarith

/-- Inside a common class, two vectors incomparable with a middle vector
cannot straddle a strict comparison: the core contradiction behind the
strict-weak-order structure of the `atan2` comparison. -/
theorem crossv_same_class_contra {u v w : ℚ × ℚ}
    (hvu : classIdx v = classIdx u) (hwu : classIdx w = classIdx u)
    (hx : 0 < crossv u w) (huv : crossv u v ≤ 0) (hvw : crossv v w ≤ 0) : False := by
  have key := crossv_y_identity u v w
  rcases classIdx_cases u with ⟨hcu, hu⟩ | ⟨hcu, hu2, hu1⟩ | ⟨hcu, hu⟩ | ⟨hcu, hu2, hu1⟩
  · have hv : v.2 < 0 := by
      rcases classIdx_cases v with ⟨h3, h4⟩ | ⟨h3, h4⟩ | ⟨h3, h4⟩ | ⟨h3, h4⟩
      · exact h4
      all_goals omega
    have hw : w.2 < 0 := by
      rcases classIdx_cases w with ⟨h3, h4⟩ | ⟨h3, h4⟩ | ⟨h3, h4⟩ | ⟨h3, h4⟩
      · exact h4
      all_goals omega
    nlinarith [mul_neg_of_neg_of_pos hv hx]
  · have hw2 : w.2 = 0 := by
      rcases classIdx_cases w with ⟨h3, h4⟩ | ⟨h3, h4, h5⟩ | ⟨h3, h4⟩ | ⟨h3, h4, h5⟩
      · omega
      · exact h4
      · omega
      · exact h4
    have : crossv u w = 0 := by unfold crossv; rw [hu2, hw2]; ring
    linarith
  · have hv : 0 < v.2 := by
      rcases classIdx_cases v with ⟨h3, h4⟩ | ⟨h3, h4⟩ | ⟨h3, h4⟩ | ⟨h3, h4⟩
      · omega
      · omega
      · exact h4
      · omega
    have hw : 0 < w.2 := by
      rcases classIdx_cases w with ⟨h3, h4⟩ | ⟨h3, h4⟩ | ⟨h3, h4⟩ | ⟨h3, h4⟩
      · omega
      · omega
      · exact h4
      · omega
    nlinarith [mul_pos hv hx]
  · have hw2 : w.2 = 0 := by
      rcases classIdx_cases w with ⟨h3, h4⟩ | ⟨h3, h4, h5⟩ | ⟨h3, h4⟩ | ⟨h3, h4, h5⟩
      · omega
      · exact h4
      · omega
      · exact h4
    have : crossv u w = 0 := by unfold crossv; rw [hu2, hw2]; ring
    linarith

theorem atanLt_split (u v w : ℚ × ℚ) (h : atanLt u w) : atanLt u v ∨ atanLt v w := by
  rcases h with h | ⟨he, hx⟩
  · rcases lt_or_ge (classIdx u) (classIdx v) with h' | h'
    · exact Or.inl (Or.inl h')
    · exact Or.inr (Or.inl (lt_of_le_of_lt h' h))
  · rcases lt_trichotomy (classIdx v) (classIdx u) with h' | h' | h'
    · exact Or.inr (Or.inl (lt_of_lt_of_le h' he.le))
    · by_contra hc
      push_neg at hc
      obtain ⟨h1, h2⟩ := hc
      have huv : ¬ (0 < crossv u v) := fun hp => h1 (Or.inr ⟨h'.symm, hp⟩)
      have hvw : ¬ (0 < crossv v w) := fun hp => h2 (Or.inr ⟨h'.trans he, hp⟩)
      push_neg at huv hvw
      exact crossv_same_class_contra h' he.symm hx huv hvw
    · exact Or.inl (Or.inl (he ▸ h'))

theorem keyLt_asymm {lowest a b : Point} (h : keyLt lowest a b) : ¬ keyLt lowest b a := by
  rcases h with ⟨ha, hb⟩ | ⟨ha, hb, hat⟩ <;> rintro (⟨ha', hb'⟩ | ⟨ha', hb', hat'⟩)
  · exact hb ha'
  · exact hb' ha
  · exact hb ha'
  · exact atanLt_asymm hat hat'

theorem keyLt_split (lowest c a b : Point) (h : keyLt lowest c a) :
    keyLt lowest c b ∨ keyLt lowest b a := by
  by_cases hb : b = lowest
  · rcases h with ⟨hc, ha⟩ | ⟨hc, ha, hat⟩ <;> exact Or.inr (Or.inl ⟨hb, ha⟩)
  · rcases h with ⟨hc, ha⟩ | ⟨hc, ha, hat⟩
    · exact Or.inl (Or.inl ⟨hc, hb⟩)
    · rcases atanLt_split (vsub c lowest) (vsub b lowest) (vsub a lowest) hat with h' | h'
      · exact Or.inl (Or.inr ⟨hc, hb, h'⟩)
      · exact Or.inr (Or.inr ⟨hb, ha, h'⟩)

instance (lowest : Point) : IsTotal Point (keyLe lowest) :=
  ⟨fun a b => by
    by_cases h : keyLt lowest b a
    · exact Or.inr (keyLt_asymm h)
    · exact Or.inl h⟩

instance (lowest : Point) : IsTrans Point (keyLe lowest) :=
  ⟨fun a b c hab hbc hca => by
    rcases keyLt_split lowest c a b hca with h | h
    · exact hbc h
    · exact hab h⟩

theorem keyLe_of_left_lowest (lowest a : Point) : keyLe lowest lowest a := by
  rintro (⟨h1, h2⟩ | ⟨h1, h2, h3⟩)
  · exact h2 rfl
  · exact h2 rfl

/-! ### Vectors relative to the anchor: the closed upper half plane -/

/-- A nonzero vector in the closed upper half plane (`y > 0`, or `y = 0`
and `x > 0`): the form every vector from the anchor to a non-anchor
input point takes. -/
def upv (v : ℚ × ℚ) : Prop := 0 < v.2 ∨ (v.2 = 0 ∧ 0 < v.1)

theorem upv_vsub_of_not_lexLt {lowest p : Point} (hmin : ¬ lexLt p lowest)
    (hne : p ≠ lowest) : upv (vsub p lowest) := by
  unfold lexLt at hmin
  push_neg at hmin
  obtain ⟨h2, h1⟩ := hmin
  rcases eq_or_lt_of_le h2 with he | hl
  · refine Or.inr ⟨by simp [vsub, he], ?_⟩
    have h1' := h1 he.symm
    rcases eq_or_lt_of_le h1' with he' | hl'
    · exact absurd (Prod.ext he'.symm he.symm) hne
    · simp [vsub]; linarith
  · exact Or.inl (by simp [vsub]; linarith)

/-- For two vectors in the closed upper half plane, the `atan2`
comparison is exactly the sign of the cross product. -/
theorem atanLt_iff_of_upv {v w : ℚ × ℚ} (hv : upv v) (hw : upv w) :
    atanLt v w ↔ 0 < crossv v w := by
  rcases hv with hv | ⟨hv2, hv1⟩ <;> rcases hw with hw | ⟨hw2, hw1⟩
  · have hcv := classIdx_of_pos hv
    have hcw := classIdx_of_pos hw
    unfold atanLt
    rw [hcv, hcw]
    simp
  · have hcv := classIdx_of_pos hv
    have hcw := classIdx_of_axis hw2 hw1.le
    unfold atanLt
    rw [hcv, hcw]
    constructor
    · intro h
      rcases h with h | ⟨h, -⟩ <;> omega
    · intro h
      exfalso
      have : crossv v w = v.1 * 0 - v.2 * w.1 := by rw [← hw2]; rfl
      nlinarith [mul_pos hv hw1]
  · have hcv := classIdx_of_axis hv2 hv1.le
    have hcw := classIdx_of_pos hw
    unfold atanLt
    rw [hcv, hcw]
    have : crossv v w = v.1 * w.2 := by unfold crossv; rw [hv2]; ring
    constructor
    · intro _; rw [this]; exact mul_pos hv1 hw
    · intro _; exact Or.inl (by omega)
  · have hcv := classIdx_of_axis hv2 hv1.le
    have hcw := classIdx_of_axis hw2 hw1.le
    unfold atanLt
    rw [hcv, hcw]
    have : crossv v w = 0 := by unfold crossv; rw [hv2, hw2]; ring
    rw [this]
    simp

/-- Transitivity of collinearity among upper-half-plane vectors. -/
theorem crossv_zero_trans {u v w : ℚ × ℚ} (hu : upv u) (hv : upv v) (hw : upv w)
    (h1 : crossv u v = 0) (h2 : crossv v w = 0) : crossv u w = 0 := by
  have key := crossv_y_identity u v w
  rw [h1, h2] at key
  simp only [mul_zero, zero_mul, add_zero] at key
  rcases hv with hv | ⟨hv2, hv1⟩
  · exact (mul_eq_zero.mp key).resolve_left hv.ne'
  · have hu2 : u.2 = 0 := by
      have : crossv u v = u.1 * 0 - u.2 * v.1 := by rw [← hv2]; rfl
      rw [this] at h1
      have := h1
      nlinarith [this]
    have hw2 : w.2 = 0 := by
      have he : crossv v w = v.1 * w.2 := by unfold crossv; rw [hv2]; ring
      rw [he] at h2
      rcases mul_eq_zero.mp h2 with h | h
      · linarith
      · exact h
    unfold crossv
    rw [hu2, hw2]
    ring

/-- An upper-half-plane vector collinear with another one is a positive
multiple of it. -/
theorem ray_decomp {u v : ℚ × ℚ} (hu : upv u) (hv : upv v) (h0 : crossv u v = 0) :
    ∃ t : ℚ, 0 < t ∧ u = (t * v.1, t * v.2) := by
  rcases hv with hv | ⟨hv2, hv1⟩
  · have hu2 : 0 < u.2 := by
      rcases hu with hu | ⟨hu2, hu1⟩
      · exact hu
      · exfalso
        have : crossv u v = u.1 * v.2 := by unfold crossv; rw [hu2]; ring
        rw [this] at h0
        rcases mul_eq_zero.mp h0 with h | h <;> linarith
    refine ⟨u.2 / v.2, div_pos hu2 hv, ?_⟩
    have h1 : u.1 * v.2 = u.2 * v.1 := by
      unfold crossv at h0
      linarith
    refine Prod.ext ?_ ?_
    · field_simp
      linarith
    · field_simp
  · have hu2 : u.2 = 0 := by
      have : crossv u v = u.1 * 0 - u.2 * v.1 := by rw [← hv2]; rfl
      rw [this] at h0
      nlinarith [h0]
    have hu1 : 0 < u.1 := by
      rcases hu with hu | ⟨-, hu1⟩
      · linarith
      · exact hu1
    refine ⟨u.1 / v.1, div_pos hu1 hv1, Prod.ext ?_ ?_⟩
    · field_simp
    · rw [hu2, hv2]; simp

/-! ### The collapsing loop computes a single left-to-right sweep -/

theorem eraseIdx_append_mid {α : Type} (pre : List α) (c : α) (rest : List α) :
    (pre ++ c :: rest).eraseIdx pre.length = pre ++ rest := by
  induction pre with
  | nil => simp [List.eraseIdx]
  | cons a t ih => simp [List.eraseIdx, ih]

theorem get_append_mid (pre : List Point) (c : Point) (rest : List Point)
    (h : pre.length < (pre ++ c :: rest).length) :
    (pre ++ c :: rest).get ⟨pre.length, h⟩ = c := by
  simp [List.getElem_append_right]

theorem get_append_mid2 (pre : List Point) (c x : Point) (rest : List Point)
    (h : pre.length + 1 < (pre ++ c :: x :: rest).length) :
    (pre ++ c :: x :: rest).get ⟨pre.length + 1, h⟩ = x := by
  rw [List.get_eq_getElem, List.getElem_append_right] <;> simp

theorem collinearLoop_eq (lowest : Point) :
    ∀ (rest : List Point) (fuel : ℕ) (pre : List Point) (cur : Point),
      rest.length ≤ fuel →
      collinearLoop lowest fuel (pre ++ cur :: rest) pre.length =
        pre ++ passRun lowest cur rest := by
  intro rest
  induction rest with
  | nil =>
    intro fuel pre cur _
    cases fuel with
    | zero => simp [collinearLoop, passRun]
    | succ n =>
      rw [collinearLoop, dif_neg (by simp)]
      simp [passRun]
  | cons x rest' ih =>
    intro fuel pre cur hf
    cases fuel with
    | zero => simp at hf
    | succ n =>
      have hn : rest'.length ≤ n := by simpa using hf
      have hcond : pre.length < (pre ++ cur :: x :: rest').length - 1 := by
        simp only [List.length_append, List.length_cons]
        omega
      rw [collinearLoop, dif_pos hcond]
      rw [get_append_mid, get_append_mid2]
      by_cases ho : orientation lowest cur x = 0
      · rw [if_pos ho]
        by_cases hd : dist2 lowest cur < dist2 lowest x
        · rw [if_pos hd, eraseIdx_append_mid]
          rw [ih n pre x hn]
          rw [passRun, if_pos ho, if_pos hd]
        · rw [if_neg hd]
          have he : (pre ++ cur :: x :: rest').eraseIdx (pre.length + 1) =
              pre ++ cur :: rest' := by
            have := eraseIdx_append_mid (pre ++ [cur]) x rest'
            simpa using this
          rw [he, ih n pre cur hn]
          rw [passRun, if_pos ho, if_neg hd]
      · rw [if_neg ho]
        have hsplit : pre ++ cur :: x :: rest' = (pre ++ [cur]) ++ x :: rest' := by
          simp
        have hlen : pre.length + 1 = (pre ++ [cur]).length := by simp
        rw [hsplit, hlen, ih n (pre ++ [cur]) x hn]
        rw [passRun, if_neg ho]
        simp

/-- The collapsing loop of `graham_scan`, started at `i = 1` on a list
with head `c0`, keeps `c0` and performs one sweep over the tail. -/
theorem collinearPass_eq_passRun (lowest c0 c1 : Point) (rest : List Point) :
    collinearPass lowest (c0 :: c1 :: rest) 1 = c0 :: passRun lowest c1 rest := by
  have h := collinearLoop_eq lowest rest (c0 :: c1 :: rest).length [c0] c1 (by simp; omega)
  simpa [collinearPass] using h

/-! ### Properties of the collapsing sweep -/

theorem cross3_first_two (p r : Point) : cross3 p p r = 0 := by
  unfold cross3; ring

theorem cross3_outer (p q : Point) : cross3 p q p = 0 := by
  unfold cross3; ring

theorem cross3_last_two (p q : Point) : cross3 p q q = 0 := by
  unfold cross3; ring

theorem dist2_nonneg (p q : Point) : 0 ≤ dist2 p q := by
  unfold dist2; positivity

theorem dist2_self (p : Point) : dist2 p p = 0 := by
  unfold dist2; ring

theorem dist2_eq_zero_iff (p q : Point) : dist2 p q = 0 ↔ p = q := by
  constructor
  · intro h
    unfold dist2 at h
    have h1 : p.1 - q.1 = 0 := by nlinarith [sq_nonneg (p.1 - q.1), sq_nonneg (p.2 - q.2)]
    have h2 : p.2 - q.2 = 0 := by nlinarith [sq_nonneg (p.1 - q.1), sq_nonneg (p.2 - q.2)]
    exact Prod.ext (by linarith) (by linarith)
  · intro h
    rw [h]
    exact dist2_self q

/-- A point is a "good" input point relative to the anchor: either equal
to it by value, or strictly inside the closed upper half plane based at
it.  Every input point is good (by minimality of the anchor). -/
def gdpt (lowest x : Point) : Prop := x = lowest ∨ upv (vsub x lowest)

theorem passRun_sublist (lowest cur : Point) (rest : List Point) :
    List.Sublist (passRun lowest cur rest) (cur :: rest) := by
  induction rest generalizing cur with
  | nil => simp [passRun]
  | cons x rest ih =>
    rw [passRun]
    split_ifs with ho hd
    · exact (ih x).trans (List.sublist_cons_self cur (x :: rest))
    · exact (ih cur).trans ((List.sublist_cons_self x rest).cons_cons cur)
    · exact (ih x).cons_cons cur

theorem passRun_ne_nil (lowest cur : Point) (rest : List Point) :
    passRun lowest cur rest ≠ [] := by
  induction rest generalizing cur with
  | nil => simp [passRun]
  | cons x rest ih =>
    rw [passRun]
    split_ifs with ho hd
    · exact ih x
    · exact ih cur
    · simp

/-- If the current element is strictly closer to the anchor than the next
one, the next one is not an anchor duplicate. -/
theorem ne_lowest_of_dist_lt {lowest cur x : Point}
    (hd : dist2 lowest cur < dist2 lowest x) : x ≠ lowest := by
  intro h
  rw [h] at hd
  have := dist2_nonneg lowest cur
  rw [show dist2 lowest lowest = 0 from dist2_self lowest] at hd
  linarith

/-- The head of a sweep output is collinear (through the anchor) with the
element the sweep started from, and is an anchor duplicate only if the
start was. -/
theorem passRun_head (lowest : Point) (rest : List Point) :
    ∀ (cur : Point), (∀ z ∈ cur :: rest, gdpt lowest z) →
    ∀ {c : Point} {l' : List Point}, passRun lowest cur rest = c :: l' →
      cross3 lowest cur c = 0 ∧ (cur ≠ lowest → c ≠ lowest) := by
  induction rest with
  | nil =>
    intro cur _ c l' h
    rw [passRun] at h
    injection h with h1 h2
    subst h1
    exact ⟨cross3_last_two lowest cur, fun h => h⟩
  | cons x rest ih =>
    intro cur hgd c l' h
    rw [passRun] at h
    split_ifs at h with ho hd
    · -- cur dropped, sweep continues from x
      have hx : x ≠ lowest := ne_lowest_of_dist_lt hd
      have hxc := ih x (fun z hz => hgd z (by simp at hz ⊢; tauto)) h
      have hcx : cross3 lowest cur x = 0 := (orientation_eq_zero_iff ..).mp ho
      constructor
      · by_cases hcur : cur = lowest
        · rw [hcur]; exact cross3_first_two ..
        · have hc : c ≠ lowest := hxc.2 hx
          have hu1 : upv (vsub cur lowest) := by
            rcases hgd cur (by simp) with h' | h'
            · exact absurd h' hcur
            · exact h'
          have hu2 : upv (vsub x lowest) := by
            rcases hgd x (by simp) with h' | h'
            · exact absurd h' hx
            · exact h'
          have hu3 : upv (vsub c lowest) := by
            have hcmem : c ∈ x :: rest :=
              (passRun_sublist lowest x rest).mem (h ▸ List.mem_cons_self c l')
            rcases hgd c (by simp at hcmem ⊢; tauto) with h' | h'
            · exact absurd h' hc
            · exact h'
          rw [cross3_eq_crossv] at hcx hxc ⊢
          exact crossv_zero_trans hu1 hu2 hu3 hcx hxc.1
      · intro hcur
        by_cases hxl : x = lowest
        · exact absurd hxl hx
        · exact hxc.2 hx
    · -- x dropped, sweep continues from cur
      exact ih cur (fun z hz => hgd z (by simp at hz ⊢; tauto)) h
    · -- cur emitted
      injection h with h1 h2
      subst h1
      exact ⟨cross3_last_two lowest cur, fun h => h⟩

/-- After the sweep, no two adjacent survivors are collinear with the
anchor. -/
theorem passRun_chain (lowest : Point) (rest : List Point) :
    ∀ (cur : Point), (∀ z ∈ cur :: rest, gdpt lowest z) →
    List.Chain' (fun a b => cross3 lowest a b ≠ 0) (passRun lowest cur rest) := by
  induction rest with
  | nil => intro cur _; simp [passRun]
  | cons x rest ih =>
    intro cur hgd
    rw [passRun]
    split_ifs with ho hd
    · exact ih x (fun z hz => hgd z (by simp at hz ⊢; tauto))
    · exact ih cur (fun z hz => hgd z (by simp at hz ⊢; tauto))
    · rw [List.chain'_cons']
      refine ⟨?_, ih x (fun z hz => hgd z (by simp at hz ⊢; tauto))⟩
      intro c hc
      obtain ⟨l', hl'⟩ : ∃ l', passRun lowest x rest = c :: l' := by
        cases hp : passRun lowest x rest with
        | nil => exact absurd hp (passRun_ne_nil lowest x rest)
        | cons a l' =>
          rw [hp] at hc
          simp at hc
          subst hc
          exact ⟨l', rfl⟩
      have hxc := passRun_head lowest rest x (fun z hz => hgd z (by simp at hz ⊢; tauto)) hl'
      have hcx : cross3 lowest cur x ≠ 0 := fun h => ho ((orientation_eq_zero_iff ..).mpr h)
      have hcur : cur ≠ lowest := by
        intro h; exact hcx (h ▸ cross3_first_two ..)
      have hx : x ≠ lowest := by
        intro h; exact hcx (h ▸ cross3_outer ..)
      have hc' : c ≠ lowest := hxc.2 hx
      intro hzero
      apply hcx
      have hu1 : upv (vsub cur lowest) := by
        rcases hgd cur (by simp) with h' | h'
        · exact absurd h' hcur
        · exact h'
      have hu2 : upv (vsub x lowest) := by
        rcases hgd x (by simp) with h' | h'
        · exact absurd h' hx
        · exact h'
      have hu3 : upv (vsub c lowest) := by
        have hcmem : c ∈ x :: rest := (passRun_sublist lowest x rest).mem
          (hl' ▸ List.mem_cons_self c l')
        rcases hgd c (by simp at hcmem ⊢; tauto) with h' | h'
        · exact absurd h' hc'
        · exact h'
      rw [cross3_eq_crossv] at hzero hxc ⊢
      have h2 : crossv (vsub c lowest) (vsub x lowest) = 0 := by
        rw [crossv_antisymm, hxc.1, neg_zero]
      exact crossv_zero_trans hu1 hu3 hu2 hzero h2

/-! ### Segments through the anchor: what the sweep discards -/

/-- `p` lies on the segment from `a` to `b`. -/
def onSeg (a b p : Point) : Prop :=
  ∃ t : ℚ, 0 ≤ t ∧ t ≤ 1 ∧ p.1 = a.1 + t * (b.1 - a.1) ∧ p.2 = a.2 + t * (b.2 - a.2)

theorem onSeg_right (a b : Point) : onSeg a b b :=
  ⟨1, by norm_num⟩

theorem onSeg_left (a b : Point) : onSeg a b a :=
  ⟨0, by norm_num⟩

theorem onSeg_trans {a b c p : Point} (h1 : onSeg a b p) (h2 : onSeg a c b) :
    onSeg a c p := by
  obtain ⟨t1, ht10, ht11, hx1, hy1⟩ := h1
  obtain ⟨t2, ht20, ht21, hx2, hy2⟩ := h2
  refine ⟨t1 * t2, mul_nonneg ht10 ht20, mul_le_one₀ ht11 ht20 ht21, ?_, ?_⟩
  · rw [hx1, hx2]; ring
  · rw [hy1, hy2]; ring

theorem upv_ne_zero {v : ℚ × ℚ} (h : upv v) : 0 < v.1 ^ 2 + v.2 ^ 2 := by
  rcases h with h | ⟨h2, h1⟩
  · positivity
  · rw [h2]; positivity

theorem upv_vsub_ne {a lowest : Point} (h : upv (vsub a lowest)) : a ≠ lowest := by
  intro he
  rcases h with h | ⟨h2, h1⟩ <;> rw [he] at * <;> simp [vsub] at *

theorem dist2_comm (p q : Point) : dist2 p q = dist2 q p := by
  unfold dist2; ring

theorem dist2_eq_norm_vsub (lowest p : Point) :
    dist2 lowest p = (vsub p lowest).1 ^ 2 + (vsub p lowest).2 ^ 2 := by
  unfold dist2 vsub; ring

/-- A point collinear with the anchor and a farther point lies on the
segment from the anchor to the farther point. -/
theorem onSeg_of_ray {lowest p c : Point}
    (hp : upv (vsub p lowest)) (hc : upv (vsub c lowest))
    (hcol : crossv (vsub p lowest) (vsub c lowest) = 0)
    (hd : dist2 lowest p ≤ dist2 lowest c) : onSeg lowest c p := by
  obtain ⟨t, ht, hveq⟩ := ray_decomp hp hc hcol
  have hc2 : 0 < dist2 lowest c := by
    rw [dist2_eq_norm_vsub]; exact upv_ne_zero hc
  have hdd : dist2 lowest p = t ^ 2 * dist2 lowest c := by
    rw [dist2_eq_norm_vsub, dist2_eq_norm_vsub, hveq]
    ring
  have ht1 : t ≤ 1 := by
    by_contra hgt
    push_neg at hgt
    have h2 : 1 < t ^ 2 := one_lt_pow hgt (by norm_num)
    nlinarith
  have h1 : (vsub p lowest).1 = t * (vsub c lowest).1 := by rw [hveq]
  have h2 : (vsub p lowest).2 = t * (vsub c lowest).2 := by rw [hveq]
  refine ⟨t, ht.le, ht1, ?_, ?_⟩
  · unfold vsub at h1; simp at h1; linarith
  · unfold vsub at h2; simp at h2; linarith

/-- The segment witness: every element of the swept list lies on a
segment from the anchor to one of the survivors. -/
theorem passRun_onSeg (lowest : Point) (rest : List Point) :
    ∀ (cur : Point), (∀ z ∈ cur :: rest, gdpt lowest z) →
    ∀ p ∈ cur :: rest, ∃ c ∈ passRun lowest cur rest, onSeg lowest c p := by
  induction rest with
  | nil =>
    intro cur _ p hp
    simp only [List.mem_cons, List.not_mem_nil, or_false] at hp
    exact ⟨cur, by simp [passRun], hp ▸ onSeg_right lowest cur⟩
  | cons x rest ih =>
    intro cur hgd p hp
    rw [passRun]
    split_ifs with ho hd
    · -- cur dropped (closer than x)
      have hx : x ≠ lowest := ne_lowest_of_dist_lt hd
      have hgd' : ∀ z ∈ x :: rest, gdpt lowest z :=
        fun z hz => hgd z (by simp at hz ⊢; tauto)
      rcases List.mem_cons.mp hp with hpc | hp'
      · by_cases hcl : cur = lowest
        · obtain ⟨c, hc⟩ := List.exists_mem_of_ne_nil _ (passRun_ne_nil lowest x rest)
          exact ⟨c, hc, by rw [hpc, hcl]; exact onSeg_left lowest c⟩
        · have hucur : upv (vsub cur lowest) := (hgd cur (by simp)).resolve_left hcl
          have hux : upv (vsub x lowest) := (hgd x (by simp)).resolve_left hx
          have hseg : onSeg lowest x cur := by
            apply onSeg_of_ray hucur hux
            · rw [← cross3_eq_crossv]; exact (orientation_eq_zero_iff ..).mp ho
            · exact hd.le
          obtain ⟨c, hcmem, hcx⟩ := ih x hgd' x (by simp)
          exact ⟨c, hcmem, hpc ▸ onSeg_trans hseg hcx⟩
      · exact ih x hgd' p hp'
    · -- x dropped (not farther than cur)
      have hgd' : ∀ z ∈ cur :: rest, gdpt lowest z :=
        fun z hz => hgd z (by simp at hz ⊢; tauto)
      rcases List.mem_cons.mp hp with hpc | hp'
      · exact ih cur hgd' p (by simp [hpc])
      · rcases List.mem_cons.mp hp' with hpx | hp''
        · by_cases hxl : x = lowest
          · obtain ⟨c, hc⟩ := List.exists_mem_of_ne_nil _ (passRun_ne_nil lowest cur rest)
            exact ⟨c, hc, by rw [hpx, hxl]; exact onSeg_left lowest c⟩
          · have hux : upv (vsub x lowest) := (hgd x (by simp)).resolve_left hxl
            have hcl : cur ≠ lowest := by
              intro he
              push_neg at hd
              rw [he, dist2_self] at hd
              have h0 : dist2 lowest x = 0 :=
                le_antisymm hd (dist2_nonneg lowest x)
              exact hxl ((dist2_eq_zero_iff ..).mp (dist2_comm x lowest ▸ h0))
            have hucur : upv (vsub cur lowest) := (hgd cur (by simp)).resolve_left hcl
            have hseg : onSeg lowest cur x := by
              apply onSeg_of_ray hux hucur
              · rw [crossv_antisymm, ← cross3_eq_crossv, neg_eq_zero]
                exact (orientation_eq_zero_iff ..).mp ho
              · exact not_lt.mp hd
            obtain ⟨c, hcmem, hccur⟩ := ih cur hgd' cur (by simp)
            exact ⟨c, hcmem, hpx ▸ onSeg_trans hseg hccur⟩
        · exact ih cur hgd' p (by simp [hp''])
    · -- cur emitted
      rcases List.mem_cons.mp hp with hpc | hp'
      · exact ⟨cur, by simp, hpc ▸ onSeg_right lowest cur⟩
      · obtain ⟨c, hcmem, hcx⟩ := ih x (fun z hz => hgd z (by simp at hz ⊢; tauto)) p hp'
        exact ⟨c, by simp [hcmem], hcx⟩

/-- If every pair of elements is collinear with the anchor, the sweep
keeps exactly one element. -/
theorem passRun_all_collinear (lowest : Point) (rest : List Point) :
    ∀ (cur : Point),
    (∀ a ∈ cur :: rest, ∀ b ∈ cur :: rest, cross3 lowest a b = 0) →
    ∃ c, passRun lowest cur rest = [c] := by
  induction rest with
  | nil => intro cur _; exact ⟨cur, by simp [passRun]⟩
  | cons x rest ih =>
    intro cur hcol
    rw [passRun]
    have ho : orientation lowest cur x = 0 :=
      (orientation_eq_zero_iff ..).mpr (hcol cur (by simp) x (by simp))
    rw [if_pos ho]
    split_ifs with hd
    · exact ih x (fun a ha b hb => hcol a (by simp at ha ⊢; tauto) b (by simp at hb ⊢; tauto))
    · exact ih cur (fun a ha b hb => hcol a (by simp at ha ⊢; tauto) b (by simp at hb ⊢; tauto))

/-! ### The strict angular order on the collapsed tail -/

theorem atanLt_trans {u v w : ℚ × ℚ} (h1 : atanLt u v) (h2 : atanLt v w) :
    atanLt u w := by
  rcases atanLt_split u w v h1 with h | h
  · exact h
  · exact absurd h2 (atanLt_asymm h)

/-- The strict "later in the angular sweep" relation among non-anchor
points in the upper half plane. -/
def angStrict (lowest a b : Point) : Prop :=
  upv (vsub a lowest) ∧ upv (vsub b lowest) ∧
    0 < crossv (vsub a lowest) (vsub b lowest)

theorem angStrict_trans (lowest : Point) : Transitive (angStrict lowest) := by
  rintro a b c ⟨ha, hb, h1⟩ ⟨hb', hc, h2⟩
  refine ⟨ha, hc, ?_⟩
  rw [← atanLt_iff_of_upv ha hc]
  exact atanLt_trans ((atanLt_iff_of_upv ha hb).mpr h1) ((atanLt_iff_of_upv hb hc).mpr h2)

theorem angStrict_irrefl (lowest a : Point) : ¬ angStrict lowest a a := by
  rintro ⟨-, -, h⟩
  rw [crossv_self] at h
  exact lt_irrefl 0 h

theorem angStrict_ne {lowest a b : Point} (h : angStrict lowest a b) : a ≠ b := by
  rintro rfl
  exact angStrict_irrefl lowest a h

theorem angStrict_asymm {lowest a b : Point} (h : angStrict lowest a b) :
    ¬ angStrict lowest b a := by
  rintro ⟨-, -, h'⟩
  rw [crossv_antisymm] at h'
  have := h.2.2
  linarith

/-- A sorted, adjacent-noncollinear list of good points is a strictly
increasing angular chain. -/
theorem chain_angStrict_of (lowest : Point) (l : List Point)
    (hs : List.Sorted (keyLe lowest) l)
    (hc : List.Chain' (fun a b => cross3 lowest a b ≠ 0) l)
    (hg : ∀ z ∈ l, gdpt lowest z) :
    List.Chain' (angStrict lowest) l := by
  induction l with
  | nil => simp
  | cons a t ih =>
    rw [List.chain'_cons'] at hc ⊢
    refine ⟨?_, ih hs.of_cons hc.2 (fun z hz => hg z (by simp [hz]))⟩
    intro b hb
    have hnc := hc.1 b hb
    have hbmem : b ∈ t := List.mem_of_mem_head? hb
    have ha : a ≠ lowest := fun h => hnc (h ▸ cross3_first_two lowest b)
    have hbl : b ≠ lowest := fun h => hnc (h ▸ cross3_outer lowest a)
    have hua : upv (vsub a lowest) := (hg a (by simp)).resolve_left ha
    have hub : upv (vsub b lowest) := (hg b (by simp [hbmem])).resolve_left hbl
    have hle : keyLe lowest a b := (List.sorted_cons.mp hs).1 b hbmem
    have hnlt : ¬ atanLt (vsub b lowest) (vsub a lowest) :=
      fun hat => hle (Or.inr ⟨hbl, ha, hat⟩)
    rw [atanLt_iff_of_upv hub hua] at hnlt
    push_neg at hnlt
    refine ⟨hua, hub, ?_⟩
    rw [cross3_eq_crossv] at hnc
    rcases lt_trichotomy (crossv (vsub a lowest) (vsub b lowest)) 0 with h | h | h
    · exfalso
      have h' : 0 < crossv (vsub b lowest) (vsub a lowest) := by
        rw [crossv_antisymm]; linarith
      linarith
    · exact absurd h hnc
    · exact h

theorem pairwise_angStrict_of (lowest : Point) (l : List Point)
    (hs : List.Sorted (keyLe lowest) l)
    (hc : List.Chain' (fun a b => cross3 lowest a b ≠ 0) l)
    (hg : ∀ z ∈ l, gdpt lowest z) :
    List.Pairwise (angStrict lowest) l := by
  haveI : IsTrans Point (angStrict lowest) :=
    ⟨fun a b c hab hbc => angStrict_trans lowest hab hbc⟩
  exact List.chain'_iff_pairwise.mp (chain_angStrict_of lowest l hs hc hg)

theorem angStrict_orientation {lowest a b : Point} (h : angStrict lowest a b) :
    orientation lowest a b = 2 := by
  rw [orientation_eq_two_iff, cross3_eq_crossv]
  exact h.2.2

/-! ### The scan stack: adjacency, convexity invariants -/

/-- `a` and `b` occur consecutively (in this order) in `l`. -/
def adj (l : List Point) (a b : Point) : Prop :=
  ∃ l1 l2, l = l1 ++ a :: b :: l2

theorem adj_cons {x a b : Point} {l : List Point} :
    adj (x :: l) a b ↔ (x = a ∧ ∃ l2, l = b :: l2) ∨ adj l a b := by
  constructor
  · rintro ⟨l1, l2, h⟩
    cases l1 with
    | nil =>
      simp at h
      exact Or.inl ⟨h.1, l2, h.2⟩
    | cons y l1' =>
      simp at h
      exact Or.inr ⟨l1', l2, h.2⟩
  · rintro (⟨rfl, l2, rfl⟩ | ⟨l1, l2, rfl⟩)
    · exact ⟨[], l2, rfl⟩
    · exact ⟨x :: l1, l2, rfl⟩

theorem adj_of_suffix {T S : List Point} (h : T.IsSuffix S) {a b : Point}
    (ha : adj T a b) : adj S a b := by
  obtain ⟨l1, l2, rfl⟩ := ha
  obtain ⟨t, rfl⟩ := h
  exact ⟨t ++ l1, l2, by simp⟩

theorem chain'_of_adj {P : Point → Point → Prop} :
    ∀ {l : List Point}, (∀ a b, adj l a b → P a b) → List.Chain' P l := by
  intro l
  induction l with
  | nil => intro _; simp
  | cons x t ih =>
    intro h
    rw [List.chain'_cons']
    constructor
    · intro y hy
      obtain ⟨t', rfl⟩ : ∃ t', t = y :: t' := by
        cases t with
        | nil => simp at hy
        | cons z t' => simp at hy; exact ⟨t', by rw [hy]⟩
      exact h x y ⟨[], t', rfl⟩
    · exact ih (fun a b hab => h a b (adj_cons.mpr (Or.inr hab)))

theorem adj_of_chain' {P : Point → Point → Prop} :
    ∀ {l : List Point}, List.Chain' P l → ∀ a b, adj l a b → P a b := by
  intro l
  induction l with
  | nil =>
    intro _ a b hab
    obtain ⟨l1, l2, h⟩ := hab
    exact absurd h (by simp)
  | cons x t ih =>
    intro hc a b hab
    rw [List.chain'_cons'] at hc
    rcases adj_cons.mp hab with ⟨rfl, l2, rfl⟩ | hab'
    · exact hc.1 b (by simp)
    · exact ih hc.2 a b hab'

/-- Consecutive triples of the stack (held top first) turn strictly
counterclockwise when read bottom first. -/
def stackCCW : List Point → Prop
  | a :: b :: c :: t => 0 < cross3 c b a ∧ stackCCW (b :: c :: t)
  | _ => True

theorem stackCCW_tail : ∀ {l : List Point} {x : Point}, stackCCW (x :: l) → stackCCW l := by
  intro l x h
  match l, h with
  | [], _ => trivial
  | [a], _ => trivial
  | a :: b :: t, h => exact h.2

theorem stackCCW_suffix {T S : List Point} (h : T.IsSuffix S) (hS : stackCCW S) :
    stackCCW T := by
  obtain ⟨t, rfl⟩ := h
  induction t with
  | nil => exact hS
  | cons x t ih => exact ih (stackCCW_tail hS)

/-- Closed triangle membership: `w` is weakly to the left of each
directed edge of the counterclockwise triangle `O, A, P`. -/
def inTri (O A P w : Point) : Prop :=
  0 ≤ cross3 O A w ∧ 0 ≤ cross3 A P w ∧ 0 ≤ cross3 P O w

/-- Barycentric expansion of a half-plane functional over a triangle. -/
theorem tri_key (O A P u v w : Point) :
    cross3 O A P * cross3 u v w =
      cross3 A P w * cross3 u v O + cross3 P O w * cross3 u v A +
        cross3 O A w * cross3 u v P := by
  unfold cross3; ring

/-- A point in a counterclockwise triangle lies weakly left of every
directed line that has all three corners weakly on its left. -/
theorem tri_convex {O A P u v w : Point}
    (hd : 0 < cross3 O A P) (hw : inTri O A P w)
    (hO : 0 ≤ cross3 u v O) (hA : 0 ≤ cross3 u v A) (hP : 0 ≤ cross3 u v P) :
    0 ≤ cross3 u v w := by
  obtain ⟨h1, h2, h3⟩ := hw
  nlinarith [tri_key O A P u v w, mul_nonneg h2 hO, mul_nonneg h3 hA, mul_nonneg h1 hP]

/-- First rotation identity: propagation of "strictly left of an edge"
down the stack chain. -/
theorem turn_key (O A B C P : Point) :
    crossv (vsub B O) (vsub C O) * cross3 A B P =
      crossv (vsub B O) (vsub P O) * cross3 A B C +
        crossv (vsub A O) (vsub B O) * cross3 B C P := by
  unfold crossv vsub cross3; ring

theorem turn_propagate (O A B C P : Point)
    (h1 : 0 < crossv (vsub A O) (vsub B O))
    (h2 : 0 < crossv (vsub B O) (vsub C O))
    (h3 : 0 < crossv (vsub B O) (vsub P O))
    (h4 : 0 < cross3 A B C) (h5 : 0 < cross3 B C P) :
    0 < cross3 A B P := by
  nlinarith [turn_key O A B C P, mul_pos h3 h4, mul_pos h1 h5]

/-- Second rotation identity: propagation of "weakly left of the new top
edge" down the stack chain. -/
theorem turn_key2 (O A Q W W2 : Point) :
    crossv (vsub W O) (vsub A O) * cross3 A Q W2 =
      crossv (vsub W2 O) (vsub A O) * cross3 A Q W +
        crossv (vsub A O) (vsub Q O) * cross3 W2 W A := by
  unfold crossv vsub cross3; ring

theorem turn_propagate2 (O A Q W W2 : Point)
    (h1 : 0 < crossv (vsub W O) (vsub A O))
    (h2 : 0 ≤ crossv (vsub W2 O) (vsub A O))
    (h3 : 0 < crossv (vsub A O) (vsub Q O))
    (hG : 0 ≤ cross3 A Q W) (hE : 0 ≤ cross3 W2 W A) :
    0 ≤ cross3 A Q W2 := by
  nlinarith [turn_key2 O A Q W W2, mul_nonneg h2 hG, mul_nonneg h3.le hE]

/-! ### The pop loop -/

theorem popWhile_isSuffix (p : Point) : ∀ (s : List Point), (popWhile p s).IsSuffix s := by
  intro s
  match s with
  | [] => simp [popWhile]
  | [a] => simp [popWhile]
  | a :: b :: t =>
    rw [popWhile]
    split_ifs with h
    · exact (popWhile_isSuffix p (b :: t)).trans (List.suffix_cons a (b :: t))
    · exact List.suffix_refl _

/-- Under the fan conditions guaranteed by phase 2, the pop loop never
empties the stack below two elements, and on exit the top two elements
make a strictly counterclockwise turn with the incoming point. -/
theorem popWhile_spec (p lowest : Point) :
    ∀ (S : List Point), 2 ≤ S.length → S.getLast? = some lowest →
    (∀ x ∈ S.dropLast, orientation lowest x p = 2) →
    ∃ t1 t2 t', popWhile p S = t1 :: t2 :: t' ∧ orientation t2 t1 p = 2 := by
  intro S
  match S with
  | [] => intro h2; simp at h2
  | [a] => intro h2; simp at h2
  | [a, b] =>
    intro _ hlast hfan
    have hb : b = lowest := by simp at hlast; exact hlast
    have ha : orientation lowest a p = 2 := hfan a (by simp)
    rw [popWhile, if_neg (by rw [hb]; simp [ha])]
    exact ⟨a, b, [], rfl, by rw [hb]; exact ha⟩
  | a :: b :: c :: t =>
    intro _ hlast hfan
    rw [popWhile]
    split_ifs with h
    · refine popWhile_spec p lowest (b :: c :: t) (by simp) ?_ ?_
      · simpa using hlast
      · intro x hx
        exact hfan x (by simp at hx ⊢; tauto)
    · push_neg at h
      exact ⟨a, b, c :: t, rfl, h⟩

theorem getLast?_of_suffix {T S : List Point} (h : T.IsSuffix S) (hne : T ≠ []) :
    T.getLast? = S.getLast? := by
  obtain ⟨t, rfl⟩ := h
  rw [List.getLast?_append_of_ne_nil]
  exact hne

theorem popWhile_ne_nil (p : Point) : ∀ (s : List Point), s ≠ [] → popWhile p s ≠ [] := by
  intro s
  match s with
  | [] => intro h; exact absurd rfl h
  | [a] => intro _; simp [popWhile]
  | a :: b :: t =>
    intro _
    rw [popWhile]
    split_ifs with h
    · exact popWhile_ne_nil p (b :: t) (by simp)
    · simp

theorem popWhile_getLast? (p : Point) (S : List Point) (hne : S ≠ []) :
    (popWhile p S).getLast? = S.getLast? :=
  getLast?_of_suffix (popWhile_isSuffix p S) (popWhile_ne_nil p S hne)

/-! ### The two rotation inductions for the scan invariant -/

/-- The incoming point is strictly left of every edge of the popped
stack (edges read as pairs `(hi, lo)`, `hi` nearer the top). -/
theorem stack_left_of_p (lowest p : Point) :
    ∀ (T : List Point) (a b : Point),
    stackCCW (a :: b :: T) →
    (∀ x ∈ (a :: b :: T).dropLast, x ≠ lowest) →
    List.Pairwise
      (fun hi lo => lo = lowest ∨ 0 < crossv (vsub lo lowest) (vsub hi lowest))
      (a :: b :: T) →
    (∀ x ∈ a :: b :: T, x ≠ lowest → 0 < crossv (vsub x lowest) (vsub p lowest)) →
    0 < cross3 b a p →
    List.Chain' (fun hi lo => 0 < cross3 lo hi p) (a :: b :: T) := by
  intro T
  induction T with
  | nil =>
    intro a b _ _ _ _ hexit
    simp [List.chain'_cons', hexit]
  | cons c T' ih =>
    intro a b hccw hni hfan hpfan hexit
    have hstep : 0 < cross3 c b p := by
      by_cases hc : c = lowest
      · rw [hc, cross3_eq_crossv]
        exact hpfan b (by simp) (hni b (by simp))
      · apply turn_propagate lowest c b a p
        · rcases List.pairwise_cons.mp (List.pairwise_cons.mp hfan).2 with ⟨hrel, -⟩
          rcases hrel c (by simp) with h | h
          · exact absurd h hc
          · exact h
        · rcases List.pairwise_cons.mp hfan with ⟨hrel, -⟩
          rcases hrel b (by simp) with h | h
          · exact absurd h (hni b (by simp))
          · exact h
        · exact hpfan b (by simp) (hni b (by simp))
        · exact hccw.1
        · exact hexit
    rw [List.chain'_cons']
    refine ⟨fun y hy => by simp at hy; rw [← hy]; exact hexit, ?_⟩
    exact ih b c (stackCCW_tail hccw)
      (fun x hx => hni x (by simp at hx ⊢; tauto))
      (List.pairwise_cons.mp hfan).2
      (fun x hx => hpfan x (by simp at hx ⊢; tauto))
      hstep

/-- Every surviving stack element is weakly left of the new top edge
(from the new top `t1` to the incoming point `p`). -/
theorem below_new_edge (lowest p t1 : Point)
    (hq : 0 < crossv (vsub t1 lowest) (vsub p lowest)) :
    ∀ (L : List Point) (w : Point),
    0 ≤ cross3 t1 p w →
    List.Chain' (fun hi lo => 0 ≤ cross3 lo hi t1) (w :: L) →
    (∀ x ∈ w :: L, x = lowest ∨ 0 < crossv (vsub x lowest) (vsub t1 lowest)) →
    (∀ x ∈ (w :: L).dropLast, x ≠ lowest) →
    ∀ x ∈ w :: L, 0 ≤ cross3 t1 p x := by
  intro L
  induction L with
  | nil =>
    intro w hG _ _ _ x hx
    simp at hx
    rw [hx]
    exact hG
  | cons w2 L' ih =>
    intro w hG hE hfans hni x hx
    have hwne : w ≠ lowest := hni w (by simp)
    have hG2 : 0 ≤ cross3 t1 p w2 := by
      apply turn_propagate2 lowest t1 p w w2
      · rcases hfans w (by simp) with h | h
        · exact absurd h hwne
        · exact h
      · rcases hfans w2 (by simp) with h | h
        · rw [h]
          have hz : vsub lowest lowest = ((0 : ℚ), (0 : ℚ)) := by unfold vsub; simp
          rw [hz]
          unfold crossv
          simp
        · exact h.le
      · exact hq
      · exact hG
      · exact (List.chain'_cons.mp hE).1
    rcases List.mem_cons.mp hx with hxw | hx'
    · rw [hxw]; exact hG
    · exact ih w2 hG2 (List.chain'_cons.mp hE).2
        (fun z hz => hfans z (by simp at hz ⊢; tauto))
        (fun z hz => hni z (by simp at hz ⊢; tauto))
        x hx'

theorem mem_of_getLast?_eq {l : List Point} {x : Point} (h : l.getLast? = some x) :
    x ∈ l := by
  have h2 := List.dropLast_append_getLast? x h
  rw [← h2]
  simp

/-- Every popped point satisfies any predicate that holds on the
surviving stack and is closed under the triangles cut off by the pops. -/
theorem popWhile_popped (lowest p : Point) (G : Point → Prop)
    (hTri : ∀ a w, G a → 0 < cross3 lowest a p → 0 < cross3 lowest a w →
      0 ≤ cross3 a p w → 0 < cross3 lowest w p → G w) :
    ∀ (S : List Point), 2 ≤ S.length → S.getLast? = some lowest →
    (∀ x ∈ S.dropLast, x ≠ lowest) →
    List.Pairwise
      (fun hi lo => lo = lowest ∨ 0 < crossv (vsub lo lowest) (vsub hi lowest)) S →
    (∀ x ∈ S, x ≠ lowest → 0 < crossv (vsub x lowest) (vsub p lowest)) →
    (∀ z ∈ popWhile p S, G z) →
    ∀ w ∈ S, G w := by
  intro S
  match S with
  | [] => intro h2; simp at h2
  | [a] => intro h2; simp at h2
  | a :: b :: t =>
    intro _ hlast hni hfan hpfan hGout
    rw [popWhile] at hGout
    split_ifs at hGout with hcond
    · -- `a` is popped
      have hane : a ≠ lowest := hni a (by simp)
      have hbne : b ≠ lowest := by
        intro hbl
        cases t with
        | nil =>
          -- stack was `[a, lowest]`: the pop condition contradicts the fan
          apply hcond
          rw [hbl, orientation_eq_two_iff, cross3_eq_crossv]
          exact hpfan a (by simp) hane
        | cons c t' =>
          refine hni b ?_ hbl
          rw [List.dropLast_cons₂, List.dropLast_cons₂]
          simp
      have htne : t ≠ [] := by
        rintro rfl
        simp at hlast
        exact hbne hlast
      have ihall : ∀ w ∈ b :: t, G w := by
        apply popWhile_popped lowest p G hTri (b :: t)
        · cases t with
          | nil => exact absurd rfl htne
          | cons c t' => simp
        · simpa using hlast
        · intro x hx
          cases t with
          | nil => exact absurd rfl htne
          | cons c t' =>
            apply hni x
            rw [List.dropLast_cons₂, List.dropLast_cons₂]
            rw [List.dropLast_cons₂] at hx
            simp only [List.mem_cons] at hx ⊢
            tauto
        · exact (List.pairwise_cons.mp hfan).2
        · intro x hx
          exact hpfan x (by simp at hx ⊢; tauto)
        · exact hGout
      intro w hw
      rcases List.mem_cons.mp hw with rfl | hw'
      · -- the popped point itself: it lies in the triangle `lowest, b, p`
        apply hTri b w (ihall b (by simp))
        · rw [cross3_eq_crossv]
          exact hpfan b (by simp) hbne
        · rcases (List.pairwise_cons.mp hfan).1 b (by simp) with h | h
          · exact absurd h hbne
          · rw [cross3_eq_crossv]; exact h
        · rw [cross3_swap23]
          have : ¬ 0 < cross3 b w p := by
            intro hgt
            exact hcond ((orientation_eq_two_iff ..).mpr hgt)
          linarith
        · rw [cross3_eq_crossv]
          exact hpfan w (by simp) hane
      · exact ihall w hw'
    · -- no pop: the whole stack survives
      exact hGout

/-! ### The scan invariant -/

/-- Invariant of the hull stack `S` (kept top first) after the scan has
consumed the points of `processed` (a prefix of the collapsed tail). -/
structure StackInv (lowest : Point) (processed : List Point) (S : List Point) : Prop where
  sub : List.Sublist S.reverse (lowest :: processed)
  bot : S.getLast? = some lowest
  two : 2 ≤ S.length
  top : S.head? = processed.getLast?
  ccw : stackCCW S
  edges : ∀ w ∈ S, ∀ a b, adj S a b → 0 ≤ cross3 b a w
  three : 3 ≤ S.length ∨ processed.length ≤ 1

theorem StackInv.rev_eq {lowest : Point} {processed S : List Point}
    (inv : StackInv lowest processed S) :
    S = S.dropLast ++ [lowest] :=
  (List.dropLast_append_getLast? lowest inv.bot).symm

theorem StackInv.dropLast_sub {lowest : Point} {processed S : List Point}
    (inv : StackInv lowest processed S) :
    List.Sublist S.dropLast.reverse processed := by
  have h1 : S.reverse = lowest :: S.dropLast.reverse := by
    conv_lhs => rw [inv.rev_eq]
    simp
  have h2 := inv.sub
  rw [h1] at h2
  exact List.cons_sublist_cons.mp h2

/-- The full scan: it returns the final stack reversed, the final stack
satisfies the invariant, and every point ever seen (stack or input) ends
up weakly left of every directed edge of the final stack. -/
theorem scanFold_spec (lowest : Point) :
    ∀ (rest S processed : List Point),
    StackInv lowest processed S →
    List.Pairwise (angStrict lowest) (processed ++ rest) →
    (∀ z ∈ processed ++ rest, upv (vsub z lowest)) →
    ∃ S', scanFold S rest = S'.reverse ∧ StackInv lowest (processed ++ rest) S' ∧
      (∀ w, w ∈ S ∨ w ∈ rest → ∀ a b, adj S' a b → 0 ≤ cross3 b a w) := by
  intro rest
  induction rest with
  | nil =>
    intro S processed inv hpw hupv
    refine ⟨S, rfl, by simpa using inv, ?_⟩
    intro w hw a b hadj
    exact inv.edges w (hw.resolve_right (by simp)) a b hadj
  | cons p rest' ih =>
    intro S processed inv hpw hupv
    -- membership bookkeeping
    have hdropmem : ∀ x ∈ S.dropLast, x ∈ processed := by
      intro x hx
      exact inv.dropLast_sub.mem (by simpa using hx)
    have hni : ∀ x ∈ S.dropLast, x ≠ lowest := by
      intro x hx
      exact upv_vsub_ne (hupv x (List.mem_append_left _ (hdropmem x hx)))
    have hmemS : ∀ x ∈ S, x = lowest ∨ x ∈ processed := by
      intro x hx
      conv at hx => rw [inv.rev_eq]
      rcases List.mem_append.mp hx with h | h
      · exact Or.inr (hdropmem x h)
      · exact Or.inl (by simpa using h)
    -- the fan over the stack (top first)
    have hfanrev : List.Pairwise
        (fun lo hi => lo = lowest ∨ 0 < crossv (vsub lo lowest) (vsub hi lowest))
        (lowest :: processed) := by
      rw [List.pairwise_cons]
      constructor
      · intro z _; exact Or.inl rfl
      · apply ((List.pairwise_append.mp hpw).1).imp
        intro a b hab
        exact Or.inr hab.2.2
    have hfanS : List.Pairwise
        (fun hi lo => lo = lowest ∨ 0 < crossv (vsub lo lowest) (vsub hi lowest)) S := by
      have h1 := hfanrev.sublist inv.sub
      exact List.pairwise_reverse.mp h1
    have hangp : ∀ x ∈ processed, angStrict lowest x p := by
      intro x hx
      exact (List.pairwise_append.mp hpw).2.2 x hx p (by simp)
    have hpfanS : ∀ x ∈ S, x ≠ lowest → 0 < crossv (vsub x lowest) (vsub p lowest) := by
      intro x hx hxl
      rcases hmemS x hx with h | h
      · exact absurd h hxl
      · exact (hangp x h).2.2
    have hofan : ∀ x ∈ S.dropLast, orientation lowest x p = 2 := by
      intro x hx
      rw [orientation_eq_two_iff, cross3_eq_crossv]
      exact hpfanS x (by rw [inv.rev_eq]; exact List.mem_append_left _ hx) (hni x hx)
    -- pop phase
    obtain ⟨t1, t2, t'', hT, hexit⟩ := popWhile_spec p lowest S inv.two inv.bot hofan
    have hexitc : 0 < cross3 t2 t1 p := (orientation_eq_two_iff ..).mp hexit
    have hTsuf : (popWhile p S).IsSuffix S := popWhile_isSuffix p S
    have hTmem : ∀ x ∈ popWhile p S, x ∈ S := fun x hx => hTsuf.sublist.mem hx
    have hTlast : (popWhile p S).getLast? = some lowest := by
      rw [popWhile_getLast? p S (by rintro rfl; simp [popWhile] at hT), inv.bot]
    have hTdropmem : ∀ x ∈ (popWhile p S).dropLast, x ∈ S.dropLast := by
      intro x hx
      obtain ⟨t0, ht0⟩ := hTsuf
      have hTn : popWhile p S ≠ [] := by rw [hT]; simp
      rw [← ht0, List.dropLast_append_of_ne_nil t0 hTn]
      exact List.mem_append_right _ hx
    have hTccw : stackCCW (popWhile p S) := stackCCW_suffix hTsuf inv.ccw
    have hTfan : List.Pairwise
        (fun hi lo => lo = lowest ∨ 0 < crossv (vsub lo lowest) (vsub hi lowest))
        (popWhile p S) := hfanS.sublist hTsuf.sublist
    -- the incoming point is strictly left of every surviving edge
    have hchain1 : List.Chain' (fun hi lo => 0 < cross3 lo hi p) (popWhile p S) := by
      rw [hT]
      apply stack_left_of_p lowest p t'' t1 t2
      · rw [← hT]; exact hTccw
      · intro x hx
        exact hni x (hTdropmem x (by rw [hT]; exact hx))
      · rw [← hT]; exact hTfan
      · intro x hx hxl
        exact hpfanS x (hTmem x (by rw [hT]; exact hx)) hxl
      · exact hexitc
    -- old edges of the surviving stack, evaluated at the new top t1
    have ht1S : t1 ∈ S := hTmem t1 (by rw [hT]; simp)
    have ht1ne : t1 ≠ lowest := by
      apply hni t1
      apply hTdropmem t1
      rw [hT, List.dropLast_cons₂]
      simp
    have hchainE : List.Chain' (fun hi lo => 0 ≤ cross3 lo hi t1) (popWhile p S) := by
      apply chain'_of_adj
      intro a b hab
      exact inv.edges t1 ht1S a b (adj_of_suffix hTsuf hab)
    -- all surviving points are weakly left of the new edge t1 → p
    have hq1 : 0 < crossv (vsub t1 lowest) (vsub p lowest) := hpfanS t1 ht1S ht1ne
    have hbelow : ∀ x ∈ t2 :: t'', 0 ≤ cross3 t1 p x := by
      apply below_new_edge lowest p t1 hq1 t'' t2
      · rw [← cross3_cyclic]
        exact hexitc.le
      · have := hchainE
        rw [hT] at this
        exact this.tail
      · intro x hx
        have hpair := List.pairwise_cons.mp (by rw [hT] at hTfan; exact hTfan)
        exact hpair.1 x hx
      · intro x hx
        apply hni x
        apply hTdropmem x
        rw [hT, List.dropLast_cons₂]
        exact List.mem_cons_of_mem t1 hx
    -- the new stack after the push
    have hnewinv : StackInv lowest (processed ++ [p]) (p :: popWhile p S) := by
      constructor
      case sub =>
        rw [List.reverse_cons]
        have h1 : List.Sublist (popWhile p S).reverse S.reverse :=
          (List.reverse_prefix.mpr hTsuf).sublist
        have h3 := List.Sublist.append (h1.trans inv.sub) (List.Sublist.refl [p])
        simpa using h3
      case bot =>
        have hstep : (p :: popWhile p S).getLast? = (popWhile p S).getLast? := by
          rw [show p :: popWhile p S = [p] ++ popWhile p S from rfl,
            List.getLast?_append_of_ne_nil]
          rw [hT]
          simp
        rw [hstep, hTlast]
      case two =>
        rw [hT]
        simp only [List.length_cons]
        omega
      case top => simp [List.getLast?_concat]
      case ccw =>
        rw [hT]
        exact ⟨hexitc, by rw [← hT]; exact hTccw⟩
      case three =>
        left
        rw [hT]
        simp only [List.length_cons]
        omega
      case edges =>
        intro w hw a b hadj
        rcases adj_cons.mp hadj with ⟨hpa, l2, hbl2⟩ | hadj'
        · -- the new edge t1 → p
          have hbt1 : b = t1 := by
            rw [hT] at hbl2
            exact (List.cons.injEq .. ▸ hbl2).1.symm
          rcases List.mem_cons.mp hw with hwp | hwT
          · rw [hwp, ← hpa, hbt1]
            rw [cross3_last_two]
          · rw [← hpa, hbt1]
            rw [hT] at hwT
            rcases List.mem_cons.mp hwT with hwt1 | hwrest2
            · rw [hwt1, cross3_outer]
            · exact hbelow w hwrest2
        · -- an old surviving edge
          rcases List.mem_cons.mp hw with hwp | hwT
          · rw [hwp]
            exact (adj_of_chain' hchain1 a b hadj').le
          · exact inv.edges w (hTmem w hwT) a b (adj_of_suffix hTsuf hadj')
    have hpw' : List.Pairwise (angStrict lowest) ((processed ++ [p]) ++ rest') := by
      rw [List.append_assoc]
      simpa using hpw
    have hupv' : ∀ z ∈ (processed ++ [p]) ++ rest', upv (vsub z lowest) := by
      intro z hz
      apply hupv
      rw [List.append_assoc] at hz
      simpa using hz
    obtain ⟨S', hSeq, hSinv, hSgood⟩ :=
      ih (p :: popWhile p S) (processed ++ [p]) hnewinv hpw' hupv'
    have hlowT : lowest ∈ popWhile p S := mem_of_getLast?_eq hTlast
    refine ⟨S', hSeq, ?_, ?_⟩
    · rw [show (processed ++ [p]) ++ rest' = processed ++ p :: rest' by simp] at hSinv
      exact hSinv
    · intro w hw a b hadj
      rcases hw with hwS | hwrest
      · refine popWhile_popped lowest p
          (fun z => ∀ u v, adj S' u v → 0 ≤ cross3 v u z) ?_ateach S inv.two inv.bot
          hni hfanS hpfanS ?_surv w hwS a b hadj
        case _ateach =>
          intro a0 w0 hGa0 h1 h2 h3 h4
          intro u v huv
          refine tri_convex h1 ⟨h2.le, h3, ?_⟩ ?_ ?_ ?_
          · rw [cross3_cyclic]
            exact h4.le
          · exact hSgood lowest (Or.inl (List.mem_cons_of_mem p hlowT)) u v huv
          · exact hGa0 u v huv
          · exact hSgood p (Or.inl (by simp)) u v huv
        case _surv =>
          intro z hz u v huv
          exact hSgood z (Or.inl (List.mem_cons_of_mem p hz)) u v huv
      · rcases List.mem_cons.mp hwrest with hwp | hwr'
        · rw [hwp]
          exact hSgood p (Or.inl (by simp)) a b hadj
        · exact hSgood w (Or.inr hwr') a b hadj

/-! ### Assembling the pipeline -/

theorem mem_sortedOf {lowest : Point} {points : List Point} {z : Point} :
    z ∈ List.insertionSort (keyLe lowest) points ↔ z ∈ points :=
  List.mem_insertionSort (keyLe lowest)

/-- For at least three points the sorted list starts with the anchor. -/
theorem sorted_structure (p0 : Point) (ptail : List Point)
    (h3 : 3 ≤ (p0 :: ptail).length) :
    ∃ s1 srest,
      List.insertionSort (keyLe (pyMin p0 ptail)) (p0 :: ptail) =
        pyMin p0 ptail :: s1 :: srest := by
  have hlen : (List.insertionSort (keyLe (pyMin p0 ptail)) (p0 :: ptail)).length =
      (p0 :: ptail).length := List.length_insertionSort ..
  have hsorted := List.sorted_insertionSort (keyLe (pyMin p0 ptail)) (p0 :: ptail)
  have hmem : pyMin p0 ptail ∈
      List.insertionSort (keyLe (pyMin p0 ptail)) (p0 :: ptail) :=
    mem_sortedOf.mpr (pyMin_mem p0 ptail)
  cases hs : List.insertionSort (keyLe (pyMin p0 ptail)) (p0 :: ptail) with
  | nil =>
    rw [hs] at hlen
    simp only [List.length_nil, List.length_cons] at hlen h3
    omega
  | cons s0 stail =>
    cases stail with
    | nil =>
      rw [hs] at hlen
      simp only [List.length_nil, List.length_cons] at hlen h3
      omega
    | cons s1 srest =>
      have hs0 : s0 = pyMin p0 ptail := by
        rw [hs] at hmem hsorted
        by_contra hne
        rcases List.mem_cons.mp hmem with h | h
        · exact hne h.symm
        · exact (List.sorted_cons.mp hsorted).1 _ h (Or.inl ⟨rfl, hne⟩)
      exact ⟨s1, srest, by rw [hs0]⟩

/-- The main branch of `graham_scan` for at least three points, with the
sorted list and the collapsed list made explicit. -/
theorem grahamScan_branch {p0 : Point} {ptail : List Point} {lowest s1 c1 : Point}
    {srest crest : List Point}
    (h3 : 3 ≤ (p0 :: ptail).length)
    (hlow : lowest = pyMin p0 ptail)
    (hsort : List.insertionSort (keyLe lowest) (p0 :: ptail) = lowest :: s1 :: srest)
    (hct : passRun lowest s1 srest = c1 :: crest) :
    grahamScan (p0 :: ptail) =
      if crest = [] then [lowest, c1] else scanFold [c1, lowest] crest := by
  unfold grahamScan
  rw [if_neg (by simp only [List.length_cons] at h3 ⊢; omega)]
  show (if (collinearPass (pyMin p0 ptail)
            (List.insertionSort (keyLe (pyMin p0 ptail)) (p0 :: ptail)) 1).length < 3
        then collinearPass (pyMin p0 ptail)
            (List.insertionSort (keyLe (pyMin p0 ptail)) (p0 :: ptail)) 1
        else
          match collinearPass (pyMin p0 ptail)
            (List.insertionSort (keyLe (pyMin p0 ptail)) (p0 :: ptail)) 1 with
          | c0 :: c1 :: crest => scanFold [c1, c0] crest
          | _ => collinearPass (pyMin p0 ptail)
              (List.insertionSort (keyLe (pyMin p0 ptail)) (p0 :: ptail)) 1) = _
  rw [← hlow, hsort, collinearPass_eq_passRun, hct]
  by_cases hc : crest = []
  · subst hc
    rw [if_pos (by simp)]
    simp
  · rw [if_neg (by
      simp only [List.length_cons, not_lt]
      have := List.length_pos.mpr hc
      omega)]
    show scanFold [c1, lowest] crest = _
    rw [if_neg hc]

/-- Bundle of facts about the collapsed tail. -/
theorem collapsed_facts {p0 : Point} {ptail : List Point} {lowest s1 : Point}
    {srest : List Point}
    (hlow : lowest = pyMin p0 ptail)
    (hsort : List.insertionSort (keyLe lowest) (p0 :: ptail) = lowest :: s1 :: srest) :
    (∀ z ∈ s1 :: srest, z ∈ p0 :: ptail) ∧
    (∀ z ∈ s1 :: srest, gdpt lowest z) ∧
    List.Pairwise (angStrict lowest) (passRun lowest s1 srest) ∧
    (∀ z ∈ passRun lowest s1 srest, z ∈ p0 :: ptail) := by
  have hmin : ∀ z ∈ p0 :: ptail, ¬ lexLt z lowest := by
    rw [hlow]; exact pyMin_not_lt p0 ptail
  have hmemtail : ∀ z ∈ s1 :: srest, z ∈ p0 :: ptail := by
    intro z hz
    have : z ∈ lowest :: s1 :: srest := List.mem_cons_of_mem lowest hz
    rw [← hsort] at this
    exact mem_sortedOf.mp this
  have hgd : ∀ z ∈ s1 :: srest, gdpt lowest z := by
    intro z hz
    by_cases hzl : z = lowest
    · exact Or.inl hzl
    · exact Or.inr (upv_vsub_of_not_lexLt (hmin z (hmemtail z hz)) hzl)
  have hsorted := List.sorted_insertionSort (keyLe lowest) (p0 :: ptail)
  rw [hsort] at hsorted
  have hsortedTail : List.Sorted (keyLe lowest) (s1 :: srest) := hsorted.of_cons
  have hsub := passRun_sublist lowest s1 srest
  refine ⟨hmemtail, hgd, ?_, ?_⟩
  · apply pairwise_angStrict_of
    · exact hsortedTail.sublist hsub
    · exact passRun_chain lowest srest s1 hgd
    · intro z hz
      exact hgd z (hsub.mem hz)
  · intro z hz
    exact hmemtail z (hsub.mem hz)

theorem pairwise_upv (lowest : Point) :
    ∀ (l : List Point), List.Pairwise (angStrict lowest) l → 2 ≤ l.length →
    ∀ z ∈ l, upv (vsub z lowest) := by
  intro l
  match l with
  | [] => intro _ h2; simp at h2
  | [x] => intro _ h2; simp at h2
  | x :: y :: t =>
    intro hpw _ z hz
    have hrel := (List.pairwise_cons.mp hpw).1
    rcases List.mem_cons.mp hz with rfl | hz'
    · exact (hrel y (by simp)).1
    · cases t with
      | nil =>
        simp at hz'
        rw [hz']
        exact (hrel y (by simp)).2.1
      | cons c t' =>
        exact pairwise_upv lowest (y :: c :: t') (List.pairwise_cons.mp hpw).2
          (by simp) z hz'

theorem adj_nil {a b : Point} : ¬ adj [] a b := by
  rintro ⟨l1, l2, h⟩
  exact absurd h (by simp)

theorem adj_singleton {x a b : Point} : ¬ adj [x] a b := by
  rintro ⟨l1, l2, h⟩
  cases l1 with
  | nil => simp at h
  | cons y l1' => simp at h

/-- The full specification of the main scan case (`crest ≠ []`). -/
theorem scan_case_spec {p0 : Point} {ptail : List Point} {lowest s1 c1 : Point}
    {srest crest : List Point}
    (h3 : 3 ≤ (p0 :: ptail).length)
    (hlow : lowest = pyMin p0 ptail)
    (hsort : List.insertionSort (keyLe lowest) (p0 :: ptail) = lowest :: s1 :: srest)
    (hct : passRun lowest s1 srest = c1 :: crest)
    (hcrest : crest ≠ []) :
    ∃ S', grahamScan (p0 :: ptail) = S'.reverse ∧
      StackInv lowest (c1 :: crest) S' ∧
      (∀ w, w = lowest ∨ w ∈ c1 :: crest → ∀ a b, adj S' a b → 0 ≤ cross3 b a w) := by
  obtain ⟨hmemtail, hgd, hpwct, hmemct⟩ := collapsed_facts hlow hsort
  rw [hct] at hpwct hmemct
  have hupv : ∀ z ∈ c1 :: crest, upv (vsub z lowest) :=
    pairwise_upv lowest (c1 :: crest) hpwct
      (by cases crest with
          | nil => exact absurd rfl hcrest
          | cons x t => simp)
  have inv0 : StackInv lowest [c1] [c1, lowest] := by
    constructor
    case sub => simp
    case bot => simp
    case two => simp
    case top => rfl
    case ccw => trivial
    case three => right; simp
    case edges =>
      intro w hw a b hadj
      rcases adj_cons.mp hadj with ⟨ha, l2, hl2⟩ | hadj'
      · have hb : b = lowest := by
          have := (List.cons.injEq .. ▸ hl2).1
          exact this.symm
        rcases List.mem_cons.mp hw with hwc | hwl
        · rw [hwc, ← ha, hb, cross3_last_two]
        · simp at hwl
          rw [hwl, ← ha, hb, cross3_outer]
      · exact absurd hadj' adj_singleton
  obtain ⟨S', heq, hinv, hgood⟩ :=
    scanFold_spec lowest crest [c1, lowest] [c1] inv0 (by simpa using hpwct)
      (by simpa using hupv)
  refine ⟨S', ?_, by simpa using hinv, ?_⟩
  · rw [grahamScan_branch h3 hlow hsort hct, if_neg hcrest]
    exact heq
  · intro w hw a b hadj
    rcases hw with rfl | hw'
    · exact hgood w (Or.inl (by simp)) a b hadj
    · rcases List.mem_cons.mp hw' with rfl | hw''
      · exact hgood w (Or.inl (by simp)) a b hadj
      · exact hgood w (Or.inr hw'') a b hadj

/-! ### Cyclic triples and edges of the hull -/

/-- Consecutive windows of three. -/
def windows3 : List Point → List (Point × Point × Point)
  | a :: b :: c :: t => (a, b, c) :: windows3 (b :: c :: t)
  | _ => []

/-- The cyclically consecutive triples of a list (meaningful for length
at least 3): consecutive windows of the list extended by its first two
elements. -/
def cyclicTriples (l : List Point) : List (Point × Point × Point) :=
  match l with
  | a :: b :: _ => windows3 (l ++ [a, b])
  | _ => []

/-- Consecutive pairs. -/
def pairsOf : List Point → List (Point × Point)
  | a :: b :: t => (a, b) :: pairsOf (b :: t)
  | _ => []

/-- The cyclically consecutive directed edges of a list (meaningful for
length at least 2). -/
def cyclicEdges (l : List Point) : List (Point × Point) :=
  match l with
  | a :: _ :: _ => pairsOf (l ++ [a])
  | _ => []

/-- `x, y, z` occur consecutively in `l`. -/
def adj3 (l : List Point) (x y z : Point) : Prop :=
  ∃ l1 l2, l = l1 ++ x :: y :: z :: l2

theorem adj3_cons {h x y z : Point} {t : List Point} :
    adj3 (h :: t) x y z ↔ (h = x ∧ ∃ l2, t = y :: z :: l2) ∨ adj3 t x y z := by
  constructor
  · rintro ⟨l1, l2, he⟩
    cases l1 with
    | nil =>
      simp at he
      exact Or.inl ⟨he.1, l2, he.2⟩
    | cons w l1' =>
      simp at he
      exact Or.inr ⟨l1', l2, he.2⟩
  · rintro (⟨rfl, l2, rfl⟩ | ⟨l1, l2, rfl⟩)
    · exact ⟨[], l2, rfl⟩
    · exact ⟨h :: l1, l2, rfl⟩

theorem windows3_mem_adj3 :
    ∀ {L : List Point} {x y z : Point}, (x, y, z) ∈ windows3 L → adj3 L x y z := by
  intro L
  match L with
  | [] => intro x y z h; simp [windows3] at h
  | [a] => intro x y z h; simp [windows3] at h
  | [a, b] => intro x y z h; simp [windows3] at h
  | a :: b :: c :: t =>
    intro x y z h
    rw [windows3] at h
    rcases List.mem_cons.mp h with he | h'
    · obtain ⟨h1, h2, h3⟩ : x = a ∧ y = b ∧ z = c := by
        have := he
        simp at this
        exact this
      rw [h1, h2, h3]
      exact ⟨[], t, rfl⟩
    · exact adj3_cons.mpr (Or.inr (windows3_mem_adj3 h'))

theorem pairsOf_mem_adj :
    ∀ {L : List Point} {u v : Point}, (u, v) ∈ pairsOf L → adj L u v := by
  intro L
  match L with
  | [] => intro u v h; simp [pairsOf] at h
  | [a] => intro u v h; simp [pairsOf] at h
  | a :: b :: t =>
    intro u v h
    rw [pairsOf] at h
    rcases List.mem_cons.mp h with he | h'
    · obtain ⟨h1, h2⟩ : u = a ∧ v = b := by
        have := he
        simp at this
        exact this
      rw [h1, h2]
      exact ⟨[], t, rfl⟩
    · exact adj_cons.mpr (Or.inr (pairsOf_mem_adj h'))

theorem adj3_nil {x y z : Point} : ¬ adj3 [] x y z := by
  rintro ⟨l1, l2, h⟩
  exact absurd h (by simp)

theorem adj3_short {a b : Point} {x y z : Point} :
    ¬ adj3 [a, b] x y z := by
  rintro ⟨l1, l2, h⟩
  cases l1 with
  | nil => simp at h
  | cons w l1' =>
    cases l1' with
    | nil => simp at h
    | cons w2 l1'' => simp at h

/-- Splitting a consecutive triple of `A ++ [a, b]` into the three
possible positions. -/
theorem adj3_append2 :
    ∀ (A : List Point) (a b x y z : Point), adj3 (A ++ [a, b]) x y z →
      adj3 A x y z ∨ (∃ A', A = A' ++ [x, y] ∧ z = a) ∨
        (∃ A', A = A' ++ [x] ∧ y = a ∧ z = b) := by
  intro A
  induction A with
  | nil =>
    intro a b x y z h
    exact absurd h (by simpa using adj3_short)
  | cons h0 A' ih =>
    intro a b x y z h
    rcases adj3_cons.mp h with ⟨rfl, l2, hl2⟩ | h'
    · -- the triple starts at the head
      cases A' with
      | nil =>
        simp at hl2
        exact Or.inr (Or.inr ⟨[], rfl, hl2.1.symm, hl2.2.1.symm⟩)
      | cons w A'' =>
        cases A'' with
        | nil =>
          simp at hl2
          exact Or.inr (Or.inl ⟨[], by rw [hl2.1]; rfl, hl2.2.1.symm⟩)
        | cons w2 A''' =>
          simp at hl2
          exact Or.inl ⟨[], A''', by rw [hl2.1, hl2.2.1]; rfl⟩
    · rcases ih a b x y z h' with hin | ⟨A'', he, hz⟩ | ⟨A'', he, hy, hz⟩
      · rcases hin with ⟨l1, l2, rfl⟩
        exact Or.inl ⟨h0 :: l1, l2, rfl⟩
      · exact Or.inr (Or.inl ⟨h0 :: A'', by rw [he]; rfl, hz⟩)
      · exact Or.inr (Or.inr ⟨h0 :: A'', by rw [he]; rfl, hy, hz⟩)

/-- Splitting a consecutive pair of `A ++ [a]`. -/
theorem adj_append1 :
    ∀ (A : List Point) (a u v : Point), adj (A ++ [a]) u v →
      adj A u v ∨ (∃ A', A = A' ++ [u] ∧ v = a) := by
  intro A
  induction A with
  | nil =>
    intro a u v h
    exact absurd h (by simpa using adj_singleton)
  | cons h0 A' ih =>
    intro a u v h
    rcases adj_cons.mp h with ⟨rfl, l2, hl2⟩ | h'
    · cases A' with
      | nil =>
        simp at hl2
        exact Or.inr ⟨[], rfl, hl2.1.symm⟩
      | cons w A'' =>
        simp at hl2
        exact Or.inl ⟨[], A'', by rw [hl2.1]; rfl⟩
    · rcases ih a u v h' with hin | ⟨A'', he, hv⟩
      · rcases hin with ⟨l1, l2, rfl⟩
        exact Or.inl ⟨h0 :: l1, l2, rfl⟩
      · exact Or.inr ⟨h0 :: A'', by rw [he]; rfl, hv⟩

theorem adj3_reverse {l : List Point} {x y z : Point} (h : adj3 l.reverse x y z) :
    adj3 l z y x := by
  obtain ⟨l1, l2, he⟩ := h
  refine ⟨l2.reverse, l1.reverse, ?_⟩
  have := congrArg List.reverse he
  simpa using this

theorem adj_reverse {l : List Point} {u v : Point} (h : adj l.reverse u v) :
    adj l v u := by
  obtain ⟨l1, l2, he⟩ := h
  refine ⟨l2.reverse, l1.reverse, ?_⟩
  have := congrArg List.reverse he
  simpa using this

theorem stackCCW_adj3 :
    ∀ {S : List Point}, stackCCW S → ∀ {a b c : Point}, adj3 S a b c →
      0 < cross3 c b a := by
  intro S
  match S with
  | [] => intro _ a b c h; exact absurd h adj3_nil
  | [x] =>
    intro _ a b c h
    obtain ⟨l1, l2, he⟩ := h
    cases l1 with
    | nil => simp at he
    | cons w l1' => simp at he
  | [x, y] => intro _ a b c h; exact absurd h adj3_short
  | x :: y :: z :: t =>
    intro hccw a b c h
    rcases adj3_cons.mp h with ⟨rfl, l2, hl2⟩ | h'
    · obtain ⟨h1, h2⟩ : y = b ∧ z :: t = c :: l2 := by
        constructor
        · exact (List.cons.injEq .. ▸ hl2).1
        · exact (List.cons.injEq .. ▸ hl2).2
      have h3 : z = c := (List.cons.injEq .. ▸ h2).1
      rw [← h1, ← h3]
      exact hccw.1
    · exact stackCCW_adj3 (stackCCW_tail hccw) h'

theorem orientation_ne_one_iff (p q r : Point) :
    orientation p q r ≠ 1 ↔ 0 ≤ cross3 p q r := by
  rw [orientation_eq_ite]
  rcases lt_trichotomy (cross3 p q r) 0 with h | h | h
  · rw [if_neg h.ne, if_pos h]
    exact iff_of_false (by omega) (not_le.mpr h)
  · rw [if_pos h]
    exact iff_of_true (by omega) (le_of_eq h.symm)
  · rw [if_neg h.ne', if_neg (by linarith)]
    exact iff_of_true (by omega) h.le

/-! ### Structure of the hull produced by the scan case -/

theorem hull_main_facts {p0 : Point} {ptail : List Point} {lowest s1 c1 : Point}
    {srest crest : List Point}
    (h3 : 3 ≤ (p0 :: ptail).length)
    (hlow : lowest = pyMin p0 ptail)
    (hsort : List.insertionSort (keyLe lowest) (p0 :: ptail) = lowest :: s1 :: srest)
    (hct : passRun lowest s1 srest = c1 :: crest)
    (hcrest : crest ≠ []) :
    ∃ Htail, grahamScan (p0 :: ptail) = lowest :: Htail ∧
      2 ≤ Htail.length ∧
      List.Sublist Htail (c1 :: crest) ∧
      Htail.getLast? = (c1 :: crest).getLast? ∧
      (∀ t ∈ cyclicTriples (lowest :: Htail), orientation t.1 t.2.1 t.2.2 = 2) ∧
      (∀ w, (w = lowest ∨ w ∈ c1 :: crest) →
        ∀ e ∈ cyclicEdges (lowest :: Htail), 0 ≤ cross3 e.1 e.2 w) ∧
      stackCCW (lowest :: Htail).reverse := by
  obtain ⟨S', hgs, hinv, hgood⟩ := scan_case_spec h3 hlow hsort hct hcrest
  obtain ⟨-, -, hpwct, -⟩ := collapsed_facts hlow hsort
  rw [hct] at hpwct
  have h3S : 3 ≤ S'.length := by
    rcases hinv.three with h | h
    · exact h
    · simp only [List.length_cons] at h
      have := List.length_pos.mpr hcrest
      omega
  have hrev : S' = S'.dropLast ++ [lowest] := hinv.rev_eq
  have hHrev : S'.reverse = lowest :: S'.dropLast.reverse := by
    conv_lhs => rw [hrev]
    simp
  have hH : grahamScan (p0 :: ptail) = lowest :: S'.dropLast.reverse := by
    rw [hgs, hHrev]
  have hlen : 2 ≤ S'.dropLast.reverse.length := by
    rw [List.length_reverse, List.length_dropLast]
    omega
  have hsubct : List.Sublist S'.dropLast.reverse (c1 :: crest) := hinv.dropLast_sub
  have hlast : S'.dropLast.reverse.getLast? = (c1 :: crest).getLast? := by
    rw [List.getLast?_reverse]
    rw [← hinv.top]
    obtain ⟨x, y, z, rest, hS'⟩ : ∃ x y z rest, S' = x :: y :: z :: rest := by
      cases S' with
      | nil => simp at h3S
      | cons x t1 =>
        cases t1 with
        | nil => simp at h3S
        | cons y t2 =>
          cases t2 with
          | nil => simp at h3S
          | cons z rest => exact ⟨x, y, z, rest, rfl⟩
    rw [hS']
    rfl
  obtain ⟨h1, Htail2, hht⟩ : ∃ h1 Htail2, S'.dropLast.reverse = h1 :: Htail2 := by
    cases hd : S'.dropLast.reverse with
    | nil => rw [hd] at hlen; simp at hlen
    | cons h1 Htail2 => exact ⟨h1, Htail2, rfl⟩
  have htriples : ∀ t ∈ cyclicTriples (lowest :: S'.dropLast.reverse),
      orientation t.1 t.2.1 t.2.2 = 2 := by
    rintro ⟨x, y, z⟩ ht
    show orientation x y z = 2
    rw [hht] at ht
    simp only [cyclicTriples] at ht
    have hadj := windows3_mem_adj3 ht
    rw [← hht] at hadj
    rcases adj3_append2 (lowest :: S'.dropLast.reverse) lowest h1 x y z hadj with
      hin | ⟨A2, hA, hz⟩ | ⟨A2, hA, hy, hz⟩
    · rw [← hHrev] at hin
      have := stackCCW_adj3 hinv.ccw (adj3_reverse hin)
      exact (orientation_eq_two_iff ..).mpr this
    · rw [hz]
      cases A2 with
      | nil =>
        exfalso
        simp only [List.nil_append] at hA
        have h2 : S'.dropLast.reverse = [y] := by
          injection hA with hh ht2
        rw [h2] at hlen
        simp at hlen
      | cons a0 A3 =>
        have hA2 : S'.dropLast.reverse = A3 ++ [x, y] := by
          have := hA
          simp only [List.cons_append] at this
          injection this with hh ht2
        have hxy : angStrict lowest x y := by
          have hsub2 : List.Sublist [x, y] S'.dropLast.reverse := by
            rw [hA2]
            exact List.sublist_append_right A3 [x, y]
          have hp2 : List.Pairwise (angStrict lowest) [x, y] :=
            hpwct.sublist (hsub2.trans hsubct)
          exact (List.pairwise_cons.mp hp2).1 y (by simp)
        rw [orientation_eq_two_iff]
        rw [show cross3 x y lowest = cross3 lowest x y by
          rw [cross3_cyclic x y lowest, cross3_cyclic y lowest x]]
        rw [cross3_eq_crossv]
        exact hxy.2.2
    · rw [hy, hz]
      cases A2 with
      | nil =>
        exfalso
        simp only [List.nil_append] at hA
        have hemp : S'.dropLast.reverse = [] := by
          injection hA with hh ht2
        rw [hemp] at hlen
        simp at hlen
      | cons a0 A3 =>
        have hA2 : S'.dropLast.reverse = A3 ++ [x] := by
          have := hA
          simp only [List.cons_append] at this
          injection this with hh ht2
        cases A3 with
        | nil =>
          exfalso
          rw [hA2] at hlen
          simp at hlen
        | cons b0 A4 =>
          have hb0 : b0 = h1 := by
            rw [hht] at hA2
            simp only [List.cons_append] at hA2
            injection hA2 with hh ht2
            exact hh.symm
          have hx1 : angStrict lowest h1 x := by
            have hsub2 : List.Sublist [h1, x] S'.dropLast.reverse := by
              rw [hA2, hb0]
              exact (List.sublist_append_right A4 [x]).cons_cons h1
            have hp2 : List.Pairwise (angStrict lowest) [h1, x] :=
              hpwct.sublist (hsub2.trans hsubct)
            exact (List.pairwise_cons.mp hp2).1 x (by simp)
          rw [orientation_eq_two_iff]
          rw [show cross3 x lowest h1 = cross3 lowest h1 x by
            rw [cross3_cyclic x lowest h1]]
          rw [cross3_eq_crossv]
          exact hx1.2.2
  have hedges : ∀ w, (w = lowest ∨ w ∈ c1 :: crest) →
      ∀ e ∈ cyclicEdges (lowest :: S'.dropLast.reverse), 0 ≤ cross3 e.1 e.2 w := by
    rintro w hw ⟨u, v⟩ he
    show 0 ≤ cross3 u v w
    rw [hht] at he
    simp only [cyclicEdges] at he
    have hadj := pairsOf_mem_adj he
    rw [← hht] at hadj
    rcases adj_append1 (lowest :: S'.dropLast.reverse) lowest u v hadj with
      hin | ⟨A2, hA, hv⟩
    · rw [← hHrev] at hin
      exact hgood w hw v u (adj_reverse hin)
    · rw [hv]
      have hu : S'.dropLast.reverse.getLast? = some u := by
        cases A2 with
        | nil =>
          exfalso
          simp only [List.nil_append] at hA
          have hemp : S'.dropLast.reverse = [] := by
            injection hA with hh ht2
          rw [hemp] at hlen
          simp at hlen
        | cons a0 A3 =>
          have hA2 : S'.dropLast.reverse = A3 ++ [u] := by
            have := hA
            simp only [List.cons_append] at this
            injection this with hh ht2
          rw [hA2]
          exact List.getLast?_concat A3
      have hctu : (c1 :: crest).getLast? = some u := by rw [← hlast, hu]
      have hdec : c1 :: crest = (c1 :: crest).dropLast ++ [u] := by
        have hne : c1 :: crest ≠ [] := by simp
        rw [List.getLast?_eq_getLast _ hne, Option.some_inj] at hctu
        rw [← hctu]
        exact (List.dropLast_append_getLast hne).symm
      rcases hw with rfl | hwct
      · rw [cross3_last_two]
      · rcases List.mem_append.mp (hdec ▸ hwct) with hwi | hwu
        · have hrel : angStrict lowest w u := by
            have hp2 := hpwct
            rw [hdec] at hp2
            exact (List.pairwise_append.mp hp2).2.2 w hwi u (by simp)
          rw [show cross3 u lowest w = cross3 lowest w u by
            rw [cross3_cyclic u lowest w]]
          rw [cross3_eq_crossv]
          exact le_of_lt hrel.2.2
        · simp at hwu
          rw [hwu, cross3_outer]
  have hccwH : stackCCW (lowest :: S'.dropLast.reverse).reverse := by
    rw [← hHrev, List.reverse_reverse]
    exact hinv.ccw
  exact ⟨S'.dropLast.reverse, hH, hlen, hsubct, hlast, htriples, hedges, hccwH⟩

/-! ### Assembly helpers for the whole pipeline -/

/-- Lines 87–88: fewer than three points are returned unchanged. -/
theorem grahamScan_short {points : List Point} (h : points.length < 3) :
    grahamScan points = points := by
  unfold grahamScan
  rw [if_pos h]

theorem scanFold_ne_nil : ∀ (rest S : List Point), S ≠ [] → scanFold S rest ≠ [] := by
  intro rest
  induction rest with
  | nil =>
    intro S hS
    rw [scanFold]
    simp [hS]
  | cons p rest ih =>
    intro S hS
    rw [scanFold]
    exact ih (p :: popWhile p S) (by simp)

/-- The common setup for the main (`n ≥ 3`) branch. -/
theorem scan_setup (ps : List Point) (h3 : 3 ≤ ps.length) :
    ∃ p0 ptail lowest s1 srest c1 crest,
      ps = p0 :: ptail ∧ lowest = pyMin p0 ptail ∧
      List.insertionSort (keyLe lowest) (p0 :: ptail) = lowest :: s1 :: srest ∧
      passRun lowest s1 srest = c1 :: crest := by
  cases ps with
  | nil => simp at h3
  | cons p0 ptail =>
    obtain ⟨s1, srest, hsort⟩ := sorted_structure p0 ptail h3
    cases hct : passRun (pyMin p0 ptail) s1 srest with
    | nil => exact absurd hct (passRun_ne_nil _ _ _)
    | cons c1 crest =>
      exact ⟨p0, ptail, pyMin p0 ptail, s1, srest, c1, crest, rfl, rfl, hsort, hct⟩

theorem grahamScan_ne_nil {ps : List Point} (h : ps ≠ []) : grahamScan ps ≠ [] := by
  by_cases h3 : ps.length < 3
  · rw [grahamScan_short h3]
    exact h
  · push_neg at h3
    obtain ⟨p0, ptail, lowest, s1, srest, c1, crest, hps, hlow, hsort, hct⟩ :=
      scan_setup ps h3
    rw [hps] at h3 ⊢
    rw [grahamScan_branch h3 hlow hsort hct]
    by_cases hc : crest = []
    · rw [if_pos hc]; simp
    · rw [if_neg hc]
      exact scanFold_ne_nil crest [c1, lowest] (by simp)

/-- `cross3 u v ·` is affine, so a segment between two points weakly left
of the directed line `u v` stays weakly left of it. -/
theorem onSeg_cross3 {u v a b p : Point} (h : onSeg a b p)
    (ha : 0 ≤ cross3 u v a) (hb : 0 ≤ cross3 u v b) : 0 ≤ cross3 u v p := by
  obtain ⟨t, ht0, ht1, hx, hy⟩ := h
  have key : cross3 u v p = (1 - t) * cross3 u v a + t * cross3 u v b := by
    unfold cross3
    rw [hx, hy]
    ring
  have h1 : (0:ℚ) ≤ 1 - t := by linarith
  have k1 := mul_nonneg h1 ha
  have k2 := mul_nonneg ht0 hb
  linarith

/-- Membership in the closed convex region bounded by a hull list: a
single point is just that point, two points form a segment, and a list
of at least three vertices in counterclockwise order bounds the region
of points weakly to the left of every (cyclic) directed edge. -/
def insideHull (H : List Point) (p : Point) : Prop :=
  match H with
  | [] => False
  | [a] => p = a
  | [a, b] => onSeg a b p
  | a :: b :: c :: t => ∀ e ∈ cyclicEdges (a :: b :: c :: t), 0 ≤ cross3 e.1 e.2 p

/-- Every triple of the input is collinear under the program's
orientation test. -/
def allCollinear (ps : List Point) : Prop :=
  ∀ a ∈ ps, ∀ b ∈ ps, ∀ c ∈ ps, orientation a b c = 0

/-- Containment: every input point is inside the returned hull. -/
theorem grahamScan_inside (ps : List Point) : ∀ p ∈ ps, insideHull (grahamScan ps) p := by
  intro p hp
  by_cases h3 : ps.length < 3
  · rw [grahamScan_short h3]
    cases ps with
    | nil => exact absurd hp (List.not_mem_nil p)
    | cons a t1 =>
      cases t1 with
      | nil =>
        show p = a
        simpa using hp
      | cons b t2 =>
        cases t2 with
        | nil =>
          show onSeg a b p
          rcases List.mem_cons.mp hp with hpa | hp2
          · rw [hpa]
            exact onSeg_left a b
          · simp only [List.mem_cons, List.not_mem_nil, or_false] at hp2
            rw [hp2]
            exact onSeg_right a b
        | cons c t3 =>
          exfalso
          simp only [List.length_cons] at h3
          omega
  · push_neg at h3
    obtain ⟨p0, ptail, lowest, s1, srest, c1, crest, hps, hlow, hsort, hct⟩ :=
      scan_setup ps h3
    subst hps
    obtain ⟨-, hgd, -, -⟩ := collapsed_facts hlow hsort
    have hpsort : p ∈ (lowest : Point) :: s1 :: srest := by
      rw [← hsort]
      exact mem_sortedOf.mpr hp
    have hseg : ∃ c ∈ c1 :: crest, onSeg lowest c p := by
      rcases List.mem_cons.mp hpsort with hpl | hpt
      · exact ⟨c1, by simp, by rw [hpl]; exact onSeg_left lowest c1⟩
      · obtain ⟨c, hc, hcs⟩ := passRun_onSeg lowest srest s1 hgd p hpt
        rw [hct] at hc
        exact ⟨c, hc, hcs⟩
    by_cases hcrest : crest = []
    · subst hcrest
      rw [grahamScan_branch h3 hlow hsort hct, if_pos rfl]
      show onSeg lowest c1 p
      obtain ⟨c, hc, hcs⟩ := hseg
      simp only [List.mem_cons, List.not_mem_nil, or_false] at hc
      rwa [hc] at hcs
    · obtain ⟨Htail, hH, hlen, hsub, hlast, htr, hed, hccw⟩ :=
        hull_main_facts h3 hlow hsort hct hcrest
      match Htail, hlen with
      | h1 :: h2 :: t, _ =>
        rw [hH]
        intro e he
        obtain ⟨c, hc, hcs⟩ := hseg
        have hec := hed c (Or.inr hc) e he
        have hel := hed lowest (Or.inl rfl) e he
        exact onSeg_cross3 hcs hel hec

/-- Convexity: every cyclic triple of a hull with at least three
vertices is a strict counterclockwise turn. -/
theorem grahamScan_triples (ps : List Point) (h3 : 3 ≤ (grahamScan ps).length) :
    ∀ t ∈ cyclicTriples (grahamScan ps), orientation t.1 t.2.1 t.2.2 = 2 := by
  by_cases hs : ps.length < 3
  · rw [grahamScan_short hs] at h3
    omega
  · push_neg at hs
    obtain ⟨p0, ptail, lowest, s1, srest, c1, crest, hps, hlow, hsort, hct⟩ :=
      scan_setup ps hs
    subst hps
    by_cases hcrest : crest = []
    · subst hcrest
      rw [grahamScan_branch hs hlow hsort hct, if_pos rfl] at h3
      simp at h3
    · obtain ⟨Htail, hH, hlen, hsub, hlast, htr, hed, hccw⟩ :=
        hull_main_facts hs hlow hsort hct hcrest
      rw [hH]
      exact htr

/-- Subset: every returned point is an input point. -/
theorem grahamScan_subset (ps : List Point) : ∀ z ∈ grahamScan ps, z ∈ ps := by
  intro z hz
  by_cases hs : ps.length < 3
  · rwa [grahamScan_short hs] at hz
  · push_neg at hs
    obtain ⟨p0, ptail, lowest, s1, srest, c1, crest, hps, hlow, hsort, hct⟩ :=
      scan_setup ps hs
    subst hps
    obtain ⟨-, -, -, hmemct⟩ := collapsed_facts hlow hsort
    rw [hct] at hmemct
    have hlmem : lowest ∈ p0 :: ptail := hlow ▸ pyMin_mem p0 ptail
    by_cases hcrest : crest = []
    · subst hcrest
      rw [grahamScan_branch hs hlow hsort hct, if_pos rfl] at hz
      rcases List.mem_cons.mp hz with hzl | hz2
      · rw [hzl]; exact hlmem
      · simp only [List.mem_cons, List.not_mem_nil, or_false] at hz2
        rw [hz2]
        exact hmemct c1 (by simp)
    · obtain ⟨Htail, hH, hlen, hsub, hlast, htr, hed, hccw⟩ :=
        hull_main_facts hs hlow hsort hct hcrest
      rw [hH] at hz
      rcases List.mem_cons.mp hz with hzl | hz2
      · rw [hzl]; exact hlmem
      · exact hmemct z (hsub.mem hz2)

/-- No duplicates: a hull with at least three vertices repeats no point. -/
theorem grahamScan_nodup (ps : List Point) (h3 : 3 ≤ (grahamScan ps).length) :
    (grahamScan ps).Nodup := by
  by_cases hs : ps.length < 3
  · rw [grahamScan_short hs] at h3
    omega
  · push_neg at hs
    obtain ⟨p0, ptail, lowest, s1, srest, c1, crest, hps, hlow, hsort, hct⟩ :=
      scan_setup ps hs
    subst hps
    obtain ⟨-, -, hpwct, -⟩ := collapsed_facts hlow hsort
    rw [hct] at hpwct
    by_cases hcrest : crest = []
    · subst hcrest
      rw [grahamScan_branch hs hlow hsort hct, if_pos rfl] at h3
      simp at h3
    · obtain ⟨Htail, hH, hlen, hsub, hlast, htr, hed, hccw⟩ :=
        hull_main_facts hs hlow hsort hct hcrest
      have hupv : ∀ z ∈ c1 :: crest, upv (vsub z lowest) :=
        pairwise_upv lowest (c1 :: crest) hpwct
          (by cases crest with
              | nil => exact absurd rfl hcrest
              | cons x t => simp)
      rw [hH]
      refine List.nodup_cons.mpr ⟨?_, ?_⟩
      · intro hmem
        exact upv_vsub_ne (hupv lowest (hsub.mem hmem)) rfl
      · exact (hpwct.sublist hsub).imp (fun h => angStrict_ne h)

/-- The hull of at least three input points starts at the anchor. -/
theorem grahamScan_head (p0 : Point) (ptail : List Point)
    (h3 : 3 ≤ (p0 :: ptail).length) :
    (grahamScan (p0 :: ptail)).head? = some (pyMin p0 ptail) := by
  obtain ⟨s1, srest, hsort⟩ := sorted_structure p0 ptail h3
  cases hct : passRun (pyMin p0 ptail) s1 srest with
  | nil => exact absurd hct (passRun_ne_nil _ _ _)
  | cons c1 crest =>
    by_cases hcrest : crest = []
    · subst hcrest
      rw [grahamScan_branch h3 rfl hsort hct, if_pos rfl]
      rfl
    · obtain ⟨Htail, hH, hlen, hsub, hlast, htr, hed, hccw⟩ :=
        hull_main_facts h3 rfl hsort hct hcrest
      rw [hH]
      rfl

/-- All-collinear inputs of at least three points produce a two-point
hull consisting of input points whose segment carries the whole input. -/
theorem grahamScan_all_collinear (ps : List Point) (h3 : 3 ≤ ps.length)
    (hcol : allCollinear ps) :
    ∃ a b, grahamScan ps = [a, b] ∧ a ∈ ps ∧ b ∈ ps ∧ ∀ p ∈ ps, onSeg a b p := by
  obtain ⟨p0, ptail, lowest, s1, srest, c1, crest, hps, hlow, hsort, hct⟩ :=
    scan_setup ps h3
  subst hps
  obtain ⟨hmemtail, hgd, -, hmemct⟩ := collapsed_facts hlow hsort
  rw [hct] at hmemct
  have hlmem : lowest ∈ p0 :: ptail := hlow ▸ pyMin_mem p0 ptail
  have hzero : ∀ a ∈ s1 :: srest, ∀ b ∈ s1 :: srest, cross3 lowest a b = 0 := by
    intro a ha b hb
    exact (orientation_eq_zero_iff ..).mp
      (hcol lowest hlmem a (hmemtail a ha) b (hmemtail b hb))
  obtain ⟨c, hc⟩ := passRun_all_collinear lowest srest s1 hzero
  have hcrest : crest = [] := by
    rw [hct] at hc
    injection hc with h1 h2
  subst hcrest
  have hc1 : c1 ∈ p0 :: ptail := hmemct c1 (by simp)
  refine ⟨lowest, c1, ?_, hlmem, hc1, ?_⟩
  · rw [grahamScan_branch h3 hlow hsort hct, if_pos rfl]
  · intro p hp
    have hpsort : p ∈ (lowest : Point) :: s1 :: srest := by
      rw [← hsort]
      exact mem_sortedOf.mpr hp
    rcases List.mem_cons.mp hpsort with hpl | hpt
    · rw [hpl]
      exact onSeg_left lowest c1
    · obtain ⟨d, hd, hds⟩ := passRun_onSeg lowest srest s1 hgd p hpt
      rw [hct] at hd
      simp only [List.mem_cons, List.not_mem_nil, or_false] at hd
      rwa [hd] at hds

/-! ### Idempotence -/

theorem angStrict_keyLe {lowest a b : Point} (h : angStrict lowest a b) :
    keyLe lowest a b := by
  obtain ⟨ha, hb, hc⟩ := h
  rintro (⟨hbl, hal⟩ | ⟨hbl, hal, hat⟩)
  · exact upv_vsub_ne hb hbl
  · have := (atanLt_iff_of_upv hb ha).mp hat
    have hanti := crossv_antisymm (vsub b lowest) (vsub a lowest)
    linarith

/-- The collapsing sweep is the identity on lists with no adjacent
anchor-collinear pair. -/
theorem passRun_id (lowest : Point) :
    ∀ (rest : List Point) (cur : Point),
    List.Chain' (fun a b => orientation lowest a b ≠ 0) (cur :: rest) →
    passRun lowest cur rest = cur :: rest := by
  intro rest
  induction rest with
  | nil =>
    intro cur _
    rw [passRun]
  | cons x rest ih =>
    intro cur hch
    obtain ⟨h1, h2⟩ := List.chain'_cons.mp hch
    rw [passRun, if_neg h1]
    rw [ih x h2]

/-- If the whole extended stack is already convex, the scan never pops:
it just pushes everything. -/
theorem scanFold_no_pop :
    ∀ (rest S : List Point), 2 ≤ S.length → stackCCW (rest.reverse ++ S) →
    scanFold S rest = (rest.reverse ++ S).reverse := by
  intro rest
  induction rest with
  | nil =>
    intro S _ _
    rw [scanFold]
    simp
  | cons p rest ih =>
    intro S h2 hccw
    have hre : (p :: rest).reverse ++ S = rest.reverse ++ (p :: S) := by
      simp
    rw [hre] at hccw
    match S, h2 with
    | a :: b :: t, _ =>
      have hsfx : stackCCW (p :: a :: b :: t) :=
        stackCCW_suffix ⟨rest.reverse, rfl⟩ hccw
      have hturn : 0 < cross3 b a p := hsfx.1
      have hpop : popWhile p (a :: b :: t) = a :: b :: t := by
        rw [popWhile, if_neg (not_not_intro ((orientation_eq_two_iff ..).mpr hturn))]
      rw [scanFold, hpop]
      rw [ih (p :: a :: b :: t) (by simp) hccw]
      rw [hre]

/-- Idempotence of the scan: the hull of a hull is itself. -/
theorem grahamScan_idem (ps : List Point) :
    grahamScan (grahamScan ps) = grahamScan ps := by
  by_cases hs : ps.length < 3
  · rw [grahamScan_short hs]
    exact grahamScan_short hs
  · push_neg at hs
    obtain ⟨p0, ptail, lowest, s1, srest, c1, crest, hps, hlow, hsort, hct⟩ :=
      scan_setup ps hs
    subst hps
    by_cases hcrest : crest = []
    · subst hcrest
      rw [grahamScan_branch hs hlow hsort hct, if_pos rfl]
      exact grahamScan_short (by simp)
    · obtain ⟨-, -, hpwct, -⟩ := collapsed_facts hlow hsort
      rw [hct] at hpwct
      obtain ⟨Htail, hH, hlen, hsub, hlast, htr, hed, hccw⟩ :=
        hull_main_facts hs hlow hsort hct hcrest
      match Htail, hlen, hsub, hccw, hH with
      | h1 :: h2 :: t, _, hsub, hccw, hH =>
        rw [hH]
        have hpwH : List.Pairwise (angStrict lowest) (h1 :: h2 :: t) :=
          hpwct.sublist hsub
        have hmemH : ∀ r ∈ (lowest :: h1 :: h2 :: t : List Point), r ∈ p0 :: ptail := by
          intro r hr
          have : r ∈ grahamScan (p0 :: ptail) := by rw [hH]; exact hr
          exact grahamScan_subset (p0 :: ptail) r this
        have hlowH : pyMin lowest (h1 :: h2 :: t) = lowest := by
          apply pyMin_eq_of_min (by simp)
          intro r hr
          rw [hlow]
          exact pyMin_not_lt p0 ptail r (hmemH r hr)
        have hsortH : List.insertionSort (keyLe lowest) (lowest :: h1 :: h2 :: t) =
            lowest :: h1 :: h2 :: t := by
          apply List.Sorted.insertionSort_eq
          refine List.pairwise_cons.mpr ⟨fun z _ => keyLe_of_left_lowest lowest z, ?_⟩
          exact hpwH.imp (fun h => angStrict_keyLe h)
        have hchain : List.Chain' (fun a b => orientation lowest a b ≠ 0)
            (h1 :: h2 :: t) := by
          apply List.Pairwise.chain'
          exact hpwH.imp (fun h => by rw [angStrict_orientation h]; omega)
        have hctH : passRun lowest h1 (h2 :: t) = h1 :: h2 :: t :=
          passRun_id lowest (h2 :: t) h1 hchain
        rw [grahamScan_branch (by simp) hlowH.symm hsortH hctH,
          if_neg (by simp)]
        have hccw2 : stackCCW ((h2 :: t).reverse ++ [h1, lowest]) := by
          have : (lowest :: h1 :: h2 :: t : List Point).reverse =
              (h2 :: t).reverse ++ [h1, lowest] := by simp
          rwa [this] at hccw
        rw [scanFold_no_pop (h2 :: t) [h1, lowest] (by simp) hccw2]
        simp

/-! ### Determinism: key-equivalence classes and the collapse survivors -/

/-- Two points whose sort keys compare equal (neither sorts strictly
before the other). -/
def eqvKey (lowest a b : Point) : Prop :=
  ¬ keyLt lowest a b ∧ ¬ keyLt lowest b a

theorem eqvKey_symm {lowest a b : Point} (h : eqvKey lowest a b) :
    eqvKey lowest b a := ⟨h.2, h.1⟩

theorem eqvKey_trans {lowest a b c : Point} (h1 : eqvKey lowest a b)
    (h2 : eqvKey lowest b c) : eqvKey lowest a c := by
  constructor
  · intro h
    rcases keyLt_split lowest a c b h with h' | h'
    · exact h1.1 h'
    · exact h2.1 h'
  · intro h
    rcases keyLt_split lowest c a b h with h' | h'
    · exact h2.2 h'
    · exact h1.2 h'

theorem eqvKey_refl (lowest a : Point) : eqvKey lowest a a :=
  ⟨fun h => keyLt_asymm h h, fun h => keyLt_asymm h h⟩

/-- In a key-sorted run, anything between two equivalent points is
equivalent to them. -/
theorem eqvKey_between {lowest a b c : Point} (hab : keyLe lowest a b)
    (hbc : keyLe lowest b c) (hac : eqvKey lowest a c) : eqvKey lowest a b := by
  refine ⟨?_, hab⟩
  intro h
  rcases keyLt_split lowest a b c h with h' | h'
  · exact hac.1 h'
  · exact hbc h'

theorem eqvKey_anchor_left {lowest c : Point} (hc : c ≠ lowest) :
    ¬ eqvKey lowest lowest c :=
  fun h => h.1 (Or.inl ⟨rfl, hc⟩)

/-- For two non-anchor points of the upper half plane, key equality is
exactly collinearity with the anchor. -/
theorem eqvKey_iff_orientation {lowest a b : Point} (ha : a ≠ lowest) (hb : b ≠ lowest)
    (hua : upv (vsub a lowest)) (hub : upv (vsub b lowest)) :
    eqvKey lowest a b ↔ orientation lowest a b = 0 := by
  have h1 : keyLt lowest a b ↔ 0 < crossv (vsub a lowest) (vsub b lowest) := by
    unfold keyLt
    rw [atanLt_iff_of_upv hua hub]
    simp [ha, hb]
  have h2 : keyLt lowest b a ↔ 0 < crossv (vsub b lowest) (vsub a lowest) := by
    unfold keyLt
    rw [atanLt_iff_of_upv hub hua]
    simp [ha, hb]
  unfold eqvKey
  rw [h1, h2, orientation_eq_zero_iff, cross3_eq_crossv]
  have hanti := crossv_antisymm (vsub a lowest) (vsub b lowest)
  constructor
  · rintro ⟨hn1, hn2⟩
    push_neg at hn1 hn2
    linarith
  · intro h0
    rw [h0]
    constructor
    · exact lt_irrefl 0
    · intro hlt
      linarith

/-- Two points of the upper half plane on the same ray from the anchor
and at the same distance are equal. -/
theorem ray_eq_of_dist {lowest a b : Point} (hua : upv (vsub a lowest))
    (hub : upv (vsub b lowest))
    (hcol : crossv (vsub a lowest) (vsub b lowest) = 0)
    (hd : dist2 lowest a = dist2 lowest b) : a = b := by
  obtain ⟨t, ht, hveq⟩ := ray_decomp hua hub hcol
  have hv1 : (vsub a lowest).1 = t * (vsub b lowest).1 := by rw [hveq]
  have hv2 : (vsub a lowest).2 = t * (vsub b lowest).2 := by rw [hveq]
  have hb0 : 0 < dist2 lowest b := by
    rw [dist2_eq_norm_vsub]
    exact upv_ne_zero hub
  have hda : dist2 lowest a = t ^ 2 * dist2 lowest b := by
    rw [dist2_eq_norm_vsub, dist2_eq_norm_vsub, hv1, hv2]
    ring
  have ht2 : (t - 1) * (t + 1) = 0 := by nlinarith
  have ht1 : t = 1 := by
    rcases mul_eq_zero.mp ht2 with h | h
    · linarith
    · linarith
  rw [ht1, one_mul] at hv1 hv2
  unfold vsub at hv1 hv2
  simp only at hv1 hv2
  have hfst : a.1 = b.1 := by linarith
  have hsnd : a.2 = b.2 := by linarith
  exact Prod.ext hfst hsnd

/-- `c` survives the collapsing sweep over `M`: membership in `M`, and
either everything in `M` is the anchor, or `c` is a non-anchor point of
maximal distance within its key class.  This predicate depends only on
the anchor and the members of `M`. -/
def keptPt (lowest : Point) (M : List Point) (c : Point) : Prop :=
  c ∈ M ∧ ((c = lowest ∧ ∀ z ∈ M, z = lowest) ∨
    (c ≠ lowest ∧ ∀ z ∈ M, eqvKey lowest z c → dist2 lowest z ≤ dist2 lowest c))

theorem keptPt_congr {lowest : Point} {M1 M2 : List Point}
    (h : ∀ z, z ∈ M1 ↔ z ∈ M2) (c : Point) :
    keptPt lowest M1 c ↔ keptPt lowest M2 c := by
  unfold keptPt
  constructor
  · rintro ⟨hm, hc | hc⟩
    · exact ⟨(h c).mp hm, Or.inl ⟨hc.1, fun z hz => hc.2 z ((h z).mpr hz)⟩⟩
    · exact ⟨(h c).mp hm, Or.inr ⟨hc.1, fun z hz => hc.2 z ((h z).mpr hz)⟩⟩
  · rintro ⟨hm, hc | hc⟩
    · exact ⟨(h c).mpr hm, Or.inl ⟨hc.1, fun z hz => hc.2 z ((h z).mp hz)⟩⟩
    · exact ⟨(h c).mpr hm, Or.inr ⟨hc.1, fun z hz => hc.2 z ((h z).mp hz)⟩⟩

/-- Dropping a duplicated anchor from the front does not change the
survivors. -/
theorem keptPt_dup_anchor {lowest : Point} {M : List Point} (hl : lowest ∈ M)
    (c : Point) : keptPt lowest (lowest :: M) c ↔ keptPt lowest M c := by
  unfold keptPt
  constructor
  · rintro ⟨hm, hc | hc⟩
    · refine ⟨?_, Or.inl ⟨hc.1, fun z hz => hc.2 z (List.mem_cons_of_mem _ hz)⟩⟩
      rcases List.mem_cons.mp hm with hcl | hm'
      · rw [hcl]; exact hl
      · exact hm'
    · refine ⟨?_, Or.inr ⟨hc.1, fun z hz => hc.2 z (List.mem_cons_of_mem _ hz)⟩⟩
      rcases List.mem_cons.mp hm with hcl | hm'
      · exact absurd hcl hc.1
      · exact hm'
  · rintro ⟨hm, hc | hc⟩
    · refine ⟨List.mem_cons_of_mem _ hm, Or.inl ⟨hc.1, ?_⟩⟩
      intro z hz
      rcases List.mem_cons.mp hz with hzl | hz'
      · exact hzl
      · exact hc.2 z hz'
    · refine ⟨List.mem_cons_of_mem _ hm, Or.inr ⟨hc.1, ?_⟩⟩
      intro z hz he
      rcases List.mem_cons.mp hz with hzl | hz'
      · exact absurd (hzl ▸ he) (eqvKey_anchor_left hc.1)
      · exact hc.2 z hz' he

/-- Dropping the anchor from the front, when some non-anchor point
remains, does not change the survivors. -/
theorem keptPt_cons_anchor {lowest : Point} {M : List Point}
    (hex : ∃ z ∈ M, z ≠ lowest) (c : Point) :
    keptPt lowest (lowest :: M) c ↔ keptPt lowest M c := by
  obtain ⟨w, hw, hwne⟩ := hex
  unfold keptPt
  constructor
  · rintro ⟨hm, hc | hc⟩
    · exact absurd (hc.2 w (List.mem_cons_of_mem _ hw)) hwne
    · refine ⟨?_, Or.inr ⟨hc.1, fun z hz => hc.2 z (List.mem_cons_of_mem _ hz)⟩⟩
      rcases List.mem_cons.mp hm with hcl | hm'
      · exact absurd hcl hc.1
      · exact hm'
  · rintro ⟨hm, hc | hc⟩
    · exact absurd (hc.2 w hw) hwne
    · refine ⟨List.mem_cons_of_mem _ hm, Or.inr ⟨hc.1, ?_⟩⟩
      intro z hz he
      rcases List.mem_cons.mp hz with hzl | hz'
      · exact absurd (hzl ▸ he) (eqvKey_anchor_left hc.1)
      · exact hc.2 z hz' he

/-- When a witness shows not everything is the anchor, being a survivor
is membership plus the maximal-distance condition. -/
theorem keptPt_right_of {lowest : Point} {M : List Point}
    (hex : ∃ z ∈ M, z ≠ lowest) (c : Point) :
    keptPt lowest M c ↔ c ∈ M ∧ c ≠ lowest ∧
      ∀ z ∈ M, eqvKey lowest z c → dist2 lowest z ≤ dist2 lowest c := by
  obtain ⟨w, hw, hwne⟩ := hex
  unfold keptPt
  constructor
  · rintro ⟨hm, hc | hc⟩
    · exact absurd (hc.2 w hw) hwne
    · exact ⟨hm, hc.1, hc.2⟩
  · rintro ⟨hm, hne, hc⟩
    exact ⟨hm, Or.inr ⟨hne, hc⟩⟩

/-- The collapsing sweep over a key-sorted list keeps exactly the
survivors described by `keptPt`. -/
theorem passRun_mem_iff (lowest : Point) :
    ∀ (rest : List Point) (cur : Point),
    List.Pairwise (keyLe lowest) (cur :: rest) →
    (∀ z ∈ cur :: rest, gdpt lowest z) →
    ∀ c, c ∈ passRun lowest cur rest ↔ keptPt lowest (cur :: rest) c := by
  intro rest
  induction rest with
  | nil =>
    intro cur _ _ c
    rw [passRun]
    unfold keptPt
    constructor
    · intro hc
      simp only [List.mem_singleton] at hc
      refine ⟨by simp [hc], ?_⟩
      by_cases hcll : c = lowest
      · refine Or.inl ⟨hcll, ?_⟩
        intro z hz
        simp only [List.mem_singleton] at hz
        rw [hz, ← hc]
        exact hcll
      · refine Or.inr ⟨hcll, ?_⟩
        intro z hz _
        simp only [List.mem_singleton] at hz
        rw [hz, ← hc]
    · intro hc
      have := hc.1
      simpa using this
  | cons x rest ih =>
    intro cur hpw hgd c
    have hpwc := List.pairwise_cons.mp hpw
    rw [passRun]
    by_cases hcl : cur = lowest
    · have ho : orientation lowest cur x = 0 := by
        rw [hcl, orientation_eq_zero_iff]
        exact cross3_first_two lowest x
      have hd0 : dist2 lowest cur = 0 := by
        rw [hcl]
        exact dist2_self lowest
      rw [if_pos ho]
      by_cases hx : x = lowest
      · have hdlt : ¬ dist2 lowest cur < dist2 lowest x := by
          rw [hd0, hx, dist2_self]
          exact lt_irrefl 0
        rw [if_neg hdlt]
        rw [ih cur (hpw.sublist ((List.sublist_cons_self x rest).cons_cons cur))
          (fun z hz => hgd z (by
            rcases List.mem_cons.mp hz with h | h
            · rw [h]; simp
            · simp [h])) c]
        rw [hcl, hx]
        exact (keptPt_dup_anchor (by simp) c).symm
      · have hdlt : dist2 lowest cur < dist2 lowest x := by
          rw [hd0]
          have hne : dist2 lowest x ≠ 0 :=
            fun h => hx ((dist2_eq_zero_iff lowest x).mp h).symm
          exact (dist2_nonneg lowest x).lt_of_ne (Ne.symm hne)
        rw [if_pos hdlt]
        rw [ih x hpwc.2 (fun z hz => hgd z (List.mem_cons_of_mem _ hz)) c]
        rw [hcl]
        exact (keptPt_cons_anchor ⟨x, by simp, hx⟩ c).symm
    · have hall : ∀ z ∈ x :: rest, z ≠ lowest := by
        intro z hz hzl
        exact hpwc.1 z hz (Or.inl ⟨hzl, hcl⟩)
      have hup : ∀ z ∈ cur :: x :: rest, upv (vsub z lowest) := by
        intro z hz
        rcases hgd z hz with h | h
        · rcases List.mem_cons.mp hz with hzc | hz'
          · exact absurd (hzc ▸ h) hcl
          · exact absurd h (hall z hz')
        · exact h
      have hiff : orientation lowest cur x = 0 ↔ eqvKey lowest cur x :=
        (eqvKey_iff_orientation hcl (hall x (by simp)) (hup cur (by simp))
          (hup x (by simp))).symm
      by_cases ho : orientation lowest cur x = 0
      · have heqv : eqvKey lowest cur x := hiff.mp ho
        have hcrossv : crossv (vsub cur lowest) (vsub x lowest) = 0 := by
          have := (orientation_eq_zero_iff ..).mp ho
          rwa [cross3_eq_crossv] at this
        rw [if_pos ho]
        by_cases hd : dist2 lowest cur < dist2 lowest x
        · rw [if_pos hd]
          rw [ih x hpwc.2 (fun z hz => hgd z (List.mem_cons_of_mem _ hz)) c]
          have hexS : ∃ z ∈ x :: rest, z ≠ lowest := ⟨x, by simp, hall x (by simp)⟩
          have hexB : ∃ z ∈ cur :: x :: rest, z ≠ lowest := ⟨cur, by simp, hcl⟩
          rw [keptPt_right_of hexS c, keptPt_right_of hexB c]
          constructor
          · rintro ⟨hm, hne, hcond⟩
            refine ⟨List.mem_cons_of_mem _ hm, hne, ?_⟩
            intro z hz he
            rcases List.mem_cons.mp hz with hzc | hz'
            · have hxc : eqvKey lowest x c :=
                eqvKey_trans (eqvKey_symm heqv) (hzc ▸ he)
              have h1 := hcond x (by simp) hxc
              have h2 : dist2 lowest z = dist2 lowest cur := by rw [hzc]
              linarith
            · exact hcond z hz' he
          · rintro ⟨hm, hne, hcond⟩
            rcases List.mem_cons.mp hm with hcc | hm'
            · exfalso
              have hxc : eqvKey lowest x c := by
                rw [hcc]
                exact eqvKey_symm heqv
              have h1 := hcond x (by simp) hxc
              rw [hcc] at h1
              linarith
            · exact ⟨hm', hne, fun z hz he => hcond z (List.mem_cons_of_mem _ hz) he⟩
        · rw [if_neg hd]
          push_neg at hd
          rw [ih cur (hpw.sublist ((List.sublist_cons_self x rest).cons_cons cur))
            (fun z hz => hgd z (by
              rcases List.mem_cons.mp hz with h | h
              · rw [h]; simp
              · simp [h])) c]
          have hexS : ∃ z ∈ cur :: rest, z ≠ lowest := ⟨cur, by simp, hcl⟩
          have hexB : ∃ z ∈ cur :: x :: rest, z ≠ lowest := ⟨cur, by simp, hcl⟩
          rw [keptPt_right_of hexS c, keptPt_right_of hexB c]
          constructor
          · rintro ⟨hm, hne, hcond⟩
            refine ⟨?_, hne, ?_⟩
            · rcases List.mem_cons.mp hm with h | h
              · rw [h]; simp
              · simp [h]
            · intro z hz he
              rcases List.mem_cons.mp hz with hzc | hz2
              · exact hcond z (by rw [hzc]; simp) he
              · rcases List.mem_cons.mp hz2 with hzx | hz3
                · have hcc : eqvKey lowest cur c := eqvKey_trans heqv (hzx ▸ he)
                  have h1 := hcond cur (by simp) hcc
                  have h2 : dist2 lowest z = dist2 lowest x := by rw [hzx]
                  linarith
                · exact hcond z (by simp [hz3]) he
          · rintro ⟨hm, hne, hcond⟩
            refine ⟨?_, hne, ?_⟩
            · rcases List.mem_cons.mp hm with hcc | hm2
              · rw [hcc]; simp
              · rcases List.mem_cons.mp hm2 with hcx | hm3
                · have hcc : eqvKey lowest cur c :=
                    eqvKey_trans heqv (by rw [hcx]; exact eqvKey_refl ..)
                  have h1 := hcond cur (by simp) hcc
                  rw [hcx] at h1
                  have hdeq : dist2 lowest cur = dist2 lowest x := le_antisymm h1 hd
                  have hce : cur = x :=
                    ray_eq_of_dist (hup cur (by simp)) (hup x (by simp)) hcrossv hdeq
                  rw [hcx, ← hce]
                  simp
                · simp [hm3]
            · intro z hz he
              rcases List.mem_cons.mp hz with hzc | hz3
              · exact hcond z (by rw [hzc]; simp) he
              · exact hcond z (by simp [hz3]) he
      · have hneqv : ¬ eqvKey lowest cur x := fun h => ho (hiff.mpr h)
        have hnoteqv : ∀ z ∈ x :: rest, ¬ eqvKey lowest z cur := by
          intro z hz he
          apply hneqv
          rcases List.mem_cons.mp hz with hzx | hz'
          · exact hzx ▸ eqvKey_symm he
          · have h1 : keyLe lowest cur x := hpwc.1 x (by simp)
            have h2 : keyLe lowest x z := (List.pairwise_cons.mp hpwc.2).1 z hz'
            exact eqvKey_between h1 h2 (eqvKey_symm he)
        rw [if_neg ho]
        rw [List.mem_cons, ih x hpwc.2 (fun z hz => hgd z (List.mem_cons_of_mem _ hz)) c]
        have hexS : ∃ z ∈ x :: rest, z ≠ lowest := ⟨x, by simp, hall x (by simp)⟩
        have hexB : ∃ z ∈ cur :: x :: rest, z ≠ lowest := ⟨cur, by simp, hcl⟩
        rw [keptPt_right_of hexS c, keptPt_right_of hexB c]
        constructor
        · rintro (hcc | ⟨hm, hne, hcond⟩)
          · refine ⟨by rw [hcc]; simp, by rw [hcc]; exact hcl, ?_⟩
            intro z hz he
            rcases List.mem_cons.mp hz with hzc | hz'
            · rw [hzc, hcc]
            · exact absurd (by rw [hcc] at he; exact he) (hnoteqv z hz')
          · refine ⟨List.mem_cons_of_mem _ hm, hne, ?_⟩
            intro z hz he
            rcases List.mem_cons.mp hz with hzc | hz'
            · exact absurd (eqvKey_symm (hzc ▸ he)) (hnoteqv c hm)
            · exact hcond z hz' he
        · rintro ⟨hm, hne, hcond⟩
          rcases List.mem_cons.mp hm with hcc | hm'
          · exact Or.inl hcc
          · exact Or.inr ⟨hm', hne, fun z hz he => hcond z (List.mem_cons_of_mem _ hz) he⟩

/-- Determinism for at least three points: permuting the input does not
change the returned hull at all. -/
theorem grahamScan_perm {ps1 ps2 : List Point} (hp : ps1.Perm ps2)
    (h3 : 3 ≤ ps1.length) : grahamScan ps1 = grahamScan ps2 := by
  have h3' : 3 ≤ ps2.length := by rw [← hp.length_eq]; exact h3
  obtain ⟨p0, ptail, lowest, s1, srest, c1, crest, hps1, hlow, hsort, hct⟩ :=
    scan_setup ps1 h3
  obtain ⟨q0, qtail, lowest2, t1, trest, d1, drest, hps2, hlow2, hsort2, hct2⟩ :=
    scan_setup ps2 h3'
  subst hps1
  subst hps2
  have hle : lowest2 = lowest := by
    rw [hlow2]
    apply pyMin_eq_of_min
    · exact hp.subset (hlow ▸ pyMin_mem p0 ptail)
    · intro r hr
      rw [hlow]
      exact pyMin_not_lt p0 ptail r (hp.symm.subset hr)
  rw [hle] at hsort2 hct2
  have hlow2b : lowest = pyMin q0 qtail := hle ▸ hlow2
  have hperm : (s1 :: srest).Perm (t1 :: trest) := by
    have e1 : ((lowest :: s1 :: srest : List Point)).Perm (p0 :: ptail) := by
      rw [← hsort]
      exact List.perm_insertionSort _ _
    have e2 : ((lowest :: t1 :: trest : List Point)).Perm (q0 :: qtail) := by
      rw [← hsort2]
      exact List.perm_insertionSort _ _
    exact ((e1.trans hp).trans e2.symm).cons_inv
  obtain ⟨-, hgd1, hpw1, -⟩ := collapsed_facts hlow hsort
  obtain ⟨-, hgd2, hpw2, -⟩ := collapsed_facts hlow2b hsort2
  have hsorted1 := List.sorted_insertionSort (keyLe lowest) (p0 :: ptail)
  rw [hsort] at hsorted1
  have hsorted2 := List.sorted_insertionSort (keyLe lowest) (q0 :: qtail)
  rw [hsort2] at hsorted2
  have hkept : ∀ c, c ∈ passRun lowest s1 srest ↔ c ∈ passRun lowest t1 trest := by
    intro c
    rw [passRun_mem_iff lowest srest s1 hsorted1.of_cons hgd1 c,
      passRun_mem_iff lowest trest t1 hsorted2.of_cons hgd2 c]
    exact keptPt_congr (fun z => hperm.mem_iff) c
  have hnd1 : (passRun lowest s1 srest).Nodup := hpw1.imp (fun h => angStrict_ne h)
  have hnd2 : (passRun lowest t1 trest).Nodup := hpw2.imp (fun h => angStrict_ne h)
  have hperm2 : (passRun lowest s1 srest).Perm (passRun lowest t1 trest) :=
    (List.perm_ext_iff_of_nodup hnd1 hnd2).mpr hkept
  haveI : IsAntisymm Point (angStrict lowest) :=
    ⟨fun a b h1 h2 => absurd h2 (angStrict_asymm h1)⟩
  have hcteq : passRun lowest s1 srest = passRun lowest t1 trest :=
    List.eq_of_perm_of_sorted hperm2 hpw1 hpw2
  rw [hct, hct2] at hcteq
  injection hcteq with hc1 hcrest
  rw [grahamScan_branch h3 hlow hsort hct,
    grahamScan_branch h3' hlow2b hsort2 hct2, hc1, hcrest]

/-! ### Raw, dynamically typed input (coordinate well-formedness) -/

/-- A raw coordinate as it reaches `compute_hull` from the ingestion
layer: a number or a non-numeric value (modelled as a string).  The
Python engine receives such values without any type check. -/
inductive JVal where
  | num : ℚ → JVal
  | str : String → JVal
deriving DecidableEq

abbrev RawPoint := JVal × JVal

def JVal.isNum : JVal → Bool
  | JVal.num _ => true
  | JVal.str _ => false

/-- Interpretation of an all-numeric raw point (junk on non-numeric
input; only used under an all-numeric guard). -/
def toPoint : RawPoint → Point
  | (JVal.num a, JVal.num b) => (a, b)
  | _ => (0, 0)

def ofPoint (p : Point) : RawPoint := (JVal.num p.1, JVal.num p.2)

/-- `ConvexHull.compute_hull` on raw, unvalidated input (lines 22–33 and
69–133 of `main.py`).  The only check the code performs is the emptiness
check of line 29.  With fewer than three points, line 88 returns the
list unchanged without ever inspecting a coordinate.  With at least
three points every coordinate flows into the key comparison of line 92
and the arithmetic of lines 98–115; when some coordinate is not a number
Python raises a dynamic `TypeError` from inside that arithmetic
(modelled as the error value `"TypeError"`), and when all coordinates
are numeric the computation is exactly `grahamScan`.  At no point is a
malformed-input validation performed. -/
def computeHullRaw (ps : List RawPoint) : Except String (List RawPoint) :=
  if ps = [] then Except.error "No points available. Add points first."
  else if ps.length < 3 then Except.ok ps
  else if ps.all (fun p => p.1.isNum && p.2.isNum) then
    Except.ok ((grahamScan (ps.map toPoint)).map ofPoint)
  else Except.error "TypeError"

/-- Concrete evaluation of the pipeline on a unit-square input. -/
theorem square_eval :
    computeHull [((0:ℚ),(0:ℚ)), ((2:ℚ),(0:ℚ)), ((2:ℚ),(2:ℚ)), ((0:ℚ),(2:ℚ))] =
      Except.ok [((0:ℚ),(0:ℚ)), ((2:ℚ),(0:ℚ)), ((2:ℚ),(2:ℚ)), ((0:ℚ),(2:ℚ))] := by
  norm_num [computeHull, grahamScan, pyMin, lexLt, List.insertionSort, List.orderedInsert,
    keyLe, keyLt, atanLt, classIdx, crossv, vsub, collinearPass, collinearLoop, passRun,
    scanFold, popWhile, orientation, val, dist2]
  intro h
  exact absurd h (List.cons_ne_nil _ _)

/-! ### The claims -/

theorem computeHull_ok {ps H : List Point} (h : computeHull ps = Except.ok H) :
    ps ≠ [] ∧ H = grahamScan ps := by
  unfold computeHull at h
  by_cases hps : ps = []
  · rw [if_pos hps] at h
    simp at h
  · rw [if_neg hps] at h
    refine ⟨hps, ?_⟩
    injection h with h2
    exact h2.symm

/-- C1: every hull `compute_hull` returns with at least three vertices
turns strictly counterclockwise at every cyclically consecutive triple
of its vertices (wrap-around included): no triple is clockwise and no
triple is collinear. -/
theorem C1_convexity (ps H : List Point) (hH : computeHull ps = Except.ok H)
    (h3 : 3 ≤ H.length) :
    ∀ t ∈ cyclicTriples H, orientation t.1 t.2.1 t.2.2 = 2 := by
  obtain ⟨hne, hgs⟩ := computeHull_ok hH
  rw [hgs] at h3 ⊢
  exact grahamScan_triples ps h3

theorem C1_convexity_witness :
    orientation ((0:ℚ),(0:ℚ)) ((2:ℚ),(0:ℚ)) ((2:ℚ),(2:ℚ)) = 2 :=
  C1_convexity [((0:ℚ),(0:ℚ)), ((2:ℚ),(0:ℚ)), ((2:ℚ),(2:ℚ)), ((0:ℚ),(2:ℚ))]
    [((0:ℚ),(0:ℚ)), ((2:ℚ),(0:ℚ)), ((2:ℚ),(2:ℚ)), ((0:ℚ),(2:ℚ))]
    square_eval (by norm_num)
    (((0:ℚ),(0:ℚ)), ((2:ℚ),(0:ℚ)), ((2:ℚ),(2:ℚ))) (by simp [cyclicTriples, windows3])

/-- C2: for every input on which `compute_hull` succeeds, every input
point lies on or inside the region bounded by the returned hull; no
input point is strictly outside. -/
theorem C2_containment (ps H : List Point) (hH : computeHull ps = Except.ok H) :
    ∀ p ∈ ps, insideHull H p := by
  obtain ⟨hne, hgs⟩ := computeHull_ok hH
  rw [hgs]
  exact grahamScan_inside ps

theorem C2_containment_witness :
    insideHull [((0:ℚ),(0:ℚ)), ((1:ℚ),(1:ℚ))] ((1:ℚ),(1:ℚ)) :=
  C2_containment [((0:ℚ),(0:ℚ)), ((1:ℚ),(1:ℚ))] [((0:ℚ),(0:ℚ)), ((1:ℚ),(1:ℚ))] rfl
    ((1:ℚ),(1:ℚ)) (by simp)

/-- C3: every point of a sequence returned by `compute_hull` is equal,
as a coordinate pair, to some point of the input sequence. -/
theorem C3_subset (ps H : List Point) (hH : computeHull ps = Except.ok H) :
    ∀ z ∈ H, z ∈ ps := by
  obtain ⟨hne, hgs⟩ := computeHull_ok hH
  rw [hgs]
  exact grahamScan_subset ps

theorem C3_subset_witness :
    ((0:ℚ),(0:ℚ)) ∈ [((0:ℚ),(0:ℚ))] :=
  C3_subset [((0:ℚ),(0:ℚ))] [((0:ℚ),(0:ℚ))] rfl ((0:ℚ),(0:ℚ)) (by simp)

/-- C4: `compute_hull` fails with the empty-input error exactly when the
input has zero points, and on every non-empty input it returns a hull
instead of that error. -/
theorem C4_empty_error (ps : List Point) :
    (computeHull ps = Except.error "No points available. Add points first." ↔ ps = []) ∧
    (ps ≠ [] → computeHull ps = Except.ok (grahamScan ps)) := by
  unfold computeHull
  by_cases hps : ps = []
  · rw [if_pos hps]
    exact ⟨iff_of_true rfl hps, fun h => absurd hps h⟩
  · rw [if_neg hps]
    exact ⟨iff_of_false (by simp) hps, fun _ => rfl⟩

theorem C4_empty_error_witness :
    computeHull ([] : List Point) = Except.error "No points available. Add points first." ∧
    computeHull [((1:ℚ),(2:ℚ))] = Except.ok (grahamScan [((1:ℚ),(2:ℚ))]) :=
  ⟨(C4_empty_error []).1.mpr rfl, (C4_empty_error [((1:ℚ),(2:ℚ))]).2 (by simp)⟩

/-- C5: a non-empty input with fewer than three points is returned
unchanged in its original order; an input of at least three points that
are all collinear yields exactly two points, both input points, whose
segment carries every input point (the two extremes). -/
theorem C5_size_floor (ps : List Point) :
    (1 ≤ ps.length → ps.length < 3 → computeHull ps = Except.ok ps) ∧
    (3 ≤ ps.length → allCollinear ps →
      ∃ a b, computeHull ps = Except.ok [a, b] ∧ a ∈ ps ∧ b ∈ ps ∧
        ∀ p ∈ ps, onSeg a b p) := by
  constructor
  · intro h1 h2
    have hne : ps ≠ [] := by
      intro h
      rw [h] at h1
      simp at h1
    unfold computeHull
    rw [if_neg hne, grahamScan_short h2]
  · intro h3 hcol
    have hne : ps ≠ [] := by
      intro h
      rw [h] at h3
      simp at h3
    obtain ⟨a, b, hgs, ha, hb, hseg⟩ := grahamScan_all_collinear ps h3 hcol
    refine ⟨a, b, ?_, ha, hb, hseg⟩
    unfold computeHull
    rw [if_neg hne, hgs]

theorem C5_size_floor_witness :
    computeHull [((5:ℚ),(5:ℚ))] = Except.ok [((5:ℚ),(5:ℚ))] ∧
    (∃ a b, computeHull [((0:ℚ),(0:ℚ)), ((1:ℚ),(0:ℚ)), ((2:ℚ),(0:ℚ))] =
        Except.ok [a, b] ∧
      a ∈ [((0:ℚ),(0:ℚ)), ((1:ℚ),(0:ℚ)), ((2:ℚ),(0:ℚ))] ∧
      b ∈ [((0:ℚ),(0:ℚ)), ((1:ℚ),(0:ℚ)), ((2:ℚ),(0:ℚ))] ∧
      ∀ p ∈ [((0:ℚ),(0:ℚ)), ((1:ℚ),(0:ℚ)), ((2:ℚ),(0:ℚ))], onSeg a b p) :=
  ⟨(C5_size_floor [((5:ℚ),(5:ℚ))]).1 (by norm_num) (by norm_num),
   (C5_size_floor [((0:ℚ),(0:ℚ)), ((1:ℚ),(0:ℚ)), ((2:ℚ),(0:ℚ))]).2 (by norm_num) (by
      intro a ha b hb c hc
      simp only [List.mem_cons, List.not_mem_nil, or_false] at ha hb hc
      rcases ha with rfl | rfl | rfl <;> rcases hb with rfl | rfl | rfl <;>
        rcases hc with rfl | rfl | rfl <;> norm_num [orientation, val])⟩

/-- C6: for at least three input points, the first element of the
returned hull is the anchor: an input point of minimum y-coordinate,
with ties broken by minimum x-coordinate. -/
theorem C6_anchor_first (ps H : List Point) (hH : computeHull ps = Except.ok H)
    (h3 : 3 ≤ ps.length) :
    ∃ a, H.head? = some a ∧ a ∈ ps ∧
      ∀ q ∈ ps, a.2 < q.2 ∨ (a.2 = q.2 ∧ a.1 ≤ q.1) := by
  obtain ⟨hne, hgs⟩ := computeHull_ok hH
  cases ps with
  | nil => simp at h3
  | cons p0 ptail =>
    refine ⟨pyMin p0 ptail, ?_, pyMin_mem p0 ptail, ?_⟩
    · rw [hgs]
      exact grahamScan_head p0 ptail h3
    · intro q hq
      have hnl := pyMin_not_lt p0 ptail q hq
      unfold lexLt at hnl
      push_neg at hnl
      obtain ⟨h2, h1⟩ := hnl
      rcases eq_or_lt_of_le h2 with he | hl
      · exact Or.inr ⟨he, h1 he.symm⟩
      · exact Or.inl hl

theorem C6_anchor_first_witness :
    ∃ a, ([((0:ℚ),(0:ℚ)), ((2:ℚ),(0:ℚ)), ((2:ℚ),(2:ℚ)), ((0:ℚ),(2:ℚ))] :
        List Point).head? = some a ∧
      a ∈ [((0:ℚ),(0:ℚ)), ((2:ℚ),(0:ℚ)), ((2:ℚ),(2:ℚ)), ((0:ℚ),(2:ℚ))] ∧
      ∀ q ∈ [((0:ℚ),(0:ℚ)), ((2:ℚ),(0:ℚ)), ((2:ℚ),(2:ℚ)), ((0:ℚ),(2:ℚ))],
        a.2 < q.2 ∨ (a.2 = q.2 ∧ a.1 ≤ q.1) :=
  C6_anchor_first [((0:ℚ),(0:ℚ)), ((2:ℚ),(0:ℚ)), ((2:ℚ),(2:ℚ)), ((0:ℚ),(2:ℚ))]
    [((0:ℚ),(0:ℚ)), ((2:ℚ),(0:ℚ)), ((2:ℚ),(2:ℚ)), ((0:ℚ),(2:ℚ))]
    square_eval (by norm_num)

/-- C7 counterexample: two permutations of the same two-point set are
each returned in their own input order, so the two hulls start at
different vertices — the same-starting-anchor part of the determinism
claim fails for fewer than three points. -/
theorem C7_determinism_cex :
    ([((0:ℚ),(0:ℚ)), ((1:ℚ),(1:ℚ))] : List Point).Perm
      [((1:ℚ),(1:ℚ)), ((0:ℚ),(0:ℚ))] ∧
    computeHull [((0:ℚ),(0:ℚ)), ((1:ℚ),(1:ℚ))] =
      Except.ok [((0:ℚ),(0:ℚ)), ((1:ℚ),(1:ℚ))] ∧
    computeHull [((1:ℚ),(1:ℚ)), ((0:ℚ),(0:ℚ))] =
      Except.ok [((1:ℚ),(1:ℚ)), ((0:ℚ),(0:ℚ))] ∧
    ([((0:ℚ),(0:ℚ)), ((1:ℚ),(1:ℚ))] : List Point).head? ≠
      ([((1:ℚ),(1:ℚ)), ((0:ℚ),(0:ℚ))] : List Point).head? := by
  refine ⟨List.Perm.swap _ _ _, rfl, rfl, ?_⟩
  intro h
  simp only [List.head?_cons] at h
  injection h with h2
  rw [Prod.mk.injEq] at h2
  exact absurd h2.1 (by norm_num)

/-- C7 (amended): the hulls of two permutations of the same point
multiset always consist of the same vertex set, and when the input has
at least three points they are the very same sequence (in particular the
same starting anchor); for fewer than three points each run returns its
own input order, so the starting vertex may differ. -/
theorem C7_determinism_amended (ps1 ps2 H1 H2 : List Point) (hp : ps1.Perm ps2)
    (h1 : computeHull ps1 = Except.ok H1) (h2 : computeHull ps2 = Except.ok H2) :
    (∀ p, p ∈ H1 ↔ p ∈ H2) ∧ (3 ≤ ps1.length → H1 = H2) := by
  obtain ⟨hne1, hgs1⟩ := computeHull_ok h1
  obtain ⟨hne2, hgs2⟩ := computeHull_ok h2
  by_cases h3 : 3 ≤ ps1.length
  · have he : H1 = H2 := by
      rw [hgs1, hgs2]
      exact grahamScan_perm hp h3
    exact ⟨fun p => by rw [he], fun _ => he⟩
  · push_neg at h3
    have h3' : ps2.length < 3 := by
      rw [← hp.length_eq]
      exact h3
    refine ⟨?_, fun hc => absurd hc (by omega)⟩
    intro p
    rw [hgs1, grahamScan_short h3, hgs2, grahamScan_short h3']
    exact hp.mem_iff

theorem C7_determinism_amended_witness :
    (∀ p, p ∈ ([((0:ℚ),(0:ℚ)), ((1:ℚ),(1:ℚ))] : List Point) ↔
      p ∈ ([((1:ℚ),(1:ℚ)), ((0:ℚ),(0:ℚ))] : List Point)) ∧
    (3 ≤ ([((0:ℚ),(0:ℚ)), ((1:ℚ),(1:ℚ))] : List Point).length →
      [((0:ℚ),(0:ℚ)), ((1:ℚ),(1:ℚ))] = [((1:ℚ),(1:ℚ)), ((0:ℚ),(0:ℚ))]) :=
  C7_determinism_amended [((0:ℚ),(0:ℚ)), ((1:ℚ),(1:ℚ))] [((1:ℚ),(1:ℚ)), ((0:ℚ),(0:ℚ))]
    [((0:ℚ),(0:ℚ)), ((1:ℚ),(1:ℚ))] [((1:ℚ),(1:ℚ)), ((0:ℚ),(0:ℚ))]
    (List.Perm.swap _ _ _) rfl rfl

/-- C8: `compute_hull` is idempotent: feeding a returned hull back in
returns the very same sequence. -/
theorem C8_idempotent (ps H : List Point) (hH : computeHull ps = Except.ok H) :
    computeHull H = Except.ok H := by
  obtain ⟨hne, hgs⟩ := computeHull_ok hH
  have hHne : H ≠ [] := by
    rw [hgs]
    exact grahamScan_ne_nil hne
  unfold computeHull
  rw [if_neg hHne, hgs, grahamScan_idem]

theorem C8_idempotent_witness :
    computeHull [((0:ℚ),(0:ℚ)), ((2:ℚ),(0:ℚ)), ((2:ℚ),(2:ℚ)), ((0:ℚ),(2:ℚ))] =
      Except.ok [((0:ℚ),(0:ℚ)), ((2:ℚ),(0:ℚ)), ((2:ℚ),(2:ℚ)), ((0:ℚ),(2:ℚ))] :=
  C8_idempotent [((0:ℚ),(0:ℚ)), ((2:ℚ),(0:ℚ)), ((2:ℚ),(2:ℚ)), ((0:ℚ),(2:ℚ))]
    [((0:ℚ),(0:ℚ)), ((2:ℚ),(0:ℚ)), ((2:ℚ),(2:ℚ)), ((0:ℚ),(2:ℚ))] square_eval

/-- C9 counterexample: a one-point input whose coordinates are strings
(not numbers) is accepted and returned as a successful hull: no
malformed-input error is ever raised, contradicting the claimed
fail-fast coordinate validation. -/
theorem C9_validation_cex :
    (JVal.str "a").isNum = false ∧
    computeHullRaw [(JVal.str "a", JVal.str "b")] =
      Except.ok [(JVal.str "a", JVal.str "b")] :=
  ⟨rfl, rfl⟩

/-- C9 (amended): the engine validates only emptiness, never coordinate
well-formedness: every non-empty input with fewer than three points is
returned unchanged as a success whatever its coordinates are, and on the
three-or-more path a non-numeric coordinate reaches the sorting and
orientation arithmetic itself (raising a dynamic type error there)
rather than being rejected by an up-front check. -/
theorem C9_validation_amended (ps : List RawPoint) (hne : ps ≠ [])
    (hlt : ps.length < 3) : computeHullRaw ps = Except.ok ps := by
  unfold computeHullRaw
  rw [if_neg hne, if_pos hlt]

theorem C9_validation_amended_witness :
    computeHullRaw [(JVal.str "x", JVal.num 3)] =
      Except.ok [(JVal.str "x", JVal.num 3)] :=
  C9_validation_amended [(JVal.str "x", JVal.num 3)] (by simp) (by simp)

/-- C10: whenever `compute_hull` returns a hull with at least three
vertices — duplicate input points included — the hull vertices are
pairwise distinct coordinate pairs. -/
theorem C10_nodup (ps H : List Point) (hH : computeHull ps = Except.ok H)
    (h3 : 3 ≤ H.length) : H.Nodup := by
  obtain ⟨hne, hgs⟩ := computeHull_ok hH
  rw [hgs] at h3 ⊢
  exact grahamScan_nodup ps h3

theorem C10_nodup_witness :
    ([((0:ℚ),(0:ℚ)), ((2:ℚ),(0:ℚ)), ((2:ℚ),(2:ℚ)), ((0:ℚ),(2:ℚ))] : List Point).Nodup :=
  C10_nodup [((0:ℚ),(0:ℚ)), ((2:ℚ),(0:ℚ)), ((2:ℚ),(2:ℚ)), ((0:ℚ),(2:ℚ))]
    [((0:ℚ),(0:ℚ)), ((2:ℚ),(0:ℚ)), ((2:ℚ),(2:ℚ)), ((0:ℚ),(2:ℚ))]
    square_eval (by norm_num)
